import Mathlib

/-!
Verification of the `tml` timeline processor (files `osp.py` and `tml.py`)
against its natural-language specification.  The Python code is shallowly
embedded: pure functions become Lean functions, the internal mutable state of
each loop becomes explicit state passing, Python floats (only ever produced by
`float(...)` on decimal literals and combined by `+`, `min`, `max` and
comparisons) become rationals, and every place where the Python code can raise
an exception is modelled with `Except`.
-/

namespace OSP

/-- Tokens of the off-side tokenizer (`osp.py`): the `INDENT`/`DEDENT`
sentinels and content tokens holding a stripped line. -/
inductive Tok where
  | INDENT : Tok
  | DEDENT : Tok
  | content : String → Tok
deriving DecidableEq, Repr

/-- Characters matched by `LWS = re.compile(r'[ \t]*')`. -/
def isLWS (c : Char) : Bool := c = ' ' || c = '\t'

/-- The leading `[ \t]*` run of a line (`mt.group(0)` in `tokenize`). -/
def lws (line : List Char) : List Char := line.takeWhile isLWS

/-- Characters removed by Python `str.strip()` (whitespace). -/
def isStripWS (c : Char) : Bool := c = ' ' || c = '\t' || c = '\n' || c = '\r'

/-- `line[mt.span()[1]:].strip()`: the text after the leading whitespace run,
stripped on both sides. -/
def stripRest (line : List Char) : String :=
  String.mk ((((line.dropWhile isLWS).dropWhile isStripWS).reverse.dropWhile isStripWS).reverse)

/-- The updated `only_tabbed` latch after seeing a line's leading run: the
body of `tokenize` sets it to `False` as soon as a non-empty run contains a
space (`if ' ' in span: only_tabbed = False`); an empty run leaves it alone. -/
def latchAfter (onlyTabbed : Bool) (span : List Char) : Bool :=
  if span = [] then onlyTabbed
  else onlyTabbed && !(span.contains ' ')

/-- The indentation level `lev` computed by `tokenize` for one leading run,
given the already-updated `only_tabbed` latch: an empty run is level `0`;
otherwise level = count of spaces, plus count of tabs times the effective tab
width `t` (`1` while `only_tabbed`, else the configured width).  The
`tabs is None` error branch of the source is unreachable here because the
configured width is a number. -/
def levelOf (tabs : Nat) (onlyTabbed : Bool) (span : List Char) : Nat :=
  if span = [] then 0
  else
    let t := if onlyTabbed then 1 else tabs
    let base := span.count ' '
    if span.contains '\t' then base + span.count '\t' * t else base

/-- Tokenizer failures.  `unmatched lev stack` is the
`level {lev} corresponds to no outer indent level` error; `emptyStack` models
the `lev_stack[-1]` IndexError on an empty stack, unreachable from the initial
stack `[0]` because the bottom level `0` is never popped. -/
inductive TokErr where
  | unmatched : Nat → List Nat → TokErr
  | emptyStack : TokErr
deriving DecidableEq, Repr

/-- Tokenizer loop state: the level stack (stored top-first here; the Python
list is bottom-first and pushes/pops at its right end) and the `only_tabbed`
latch. -/
structure TState where
  stack : List Nat
  onlyTabbed : Bool
deriving DecidableEq, Repr

/-- The stack comparison of `tokenize` for one new level: push and emit
`INDENT` if greater than the top; pop and emit `DEDENT` while the top is
greater if smaller, then fail if the remaining top is still below the new
level; emit nothing if equal. -/
def levStep (stack : List Nat) (lev : Nat) : Except TokErr (List Tok × List Nat) :=
  match stack with
  | [] => .error .emptyStack
  | top :: rest =>
    if lev > top then .ok ([.INDENT], lev :: top :: rest)
    else if lev < top then
      let popped := (top :: rest).dropWhile (fun x => decide (x > lev))
      let ds := List.replicate ((top :: rest).length - popped.length) Tok.DEDENT
      match popped with
      | [] => .error .emptyStack
      | t :: r => if t < lev then .error (.unmatched lev (t :: r)) else .ok (ds, t :: r)
    else .ok ([], top :: rest)

/-- One iteration of the `for line in lines` loop of `tokenize`: update the
latch, compute the level, adjust the stack, and emit the structural tokens
followed by the stripped content token. -/
def lineStep (tabs : Nat) (st : TState) (line : List Char) : Except TokErr (List Tok × TState) :=
  let span := lws line
  let ot := latchAfter st.onlyTabbed span
  let lev := levelOf tabs ot span
  match levStep st.stack lev with
  | .error e => .error e
  | .ok (ts, stack') => .ok (ts ++ [Tok.content (stripRest line)], ⟨stack', ot⟩)

/-- The main loop of `tokenize` over all lines, threading the state. -/
def tokenizeAux (tabs : Nat) (st : TState) : List (List Char) → Except TokErr (List Tok × TState)
  | [] => .ok ([], st)
  | l :: ls =>
    match lineStep tabs st l with
    | .error e => .error e
    | .ok (ts, st') =>
      match tokenizeAux tabs st' ls with
      | .error e => .error e
      | .ok (ts2, st'') => .ok (ts ++ ts2, st'')

/-- `osp.tokenize`: tokens for all lines from the initial state
(stack `[0]`, `only_tabbed = True`), then one closing `DEDENT` per stack
level above the base (`while len(lev_stack) > 1`). -/
def tokenize (tabs : Nat) (lines : List (List Char)) : Except TokErr (List Tok) :=
  match tokenizeAux tabs ⟨[0], true⟩ lines with
  | .error e => .error e
  | .ok (ts, st) => .ok (ts ++ List.replicate (st.stack.length - 1) Tok.DEDENT)

/-- The successive indentation levels `lev` computed by `tokenize` for a list
of lines, starting from latch value `ot`: exactly the `latchAfter`/`levelOf`
computations performed by `lineStep` on each line, with the emitted tokens
dropped. -/
def levels (tabs : Nat) : Bool → List (List Char) → List Nat
  | _, [] => []
  | ot, l :: ls =>
    let ot' := latchAfter ot (lws l)
    levelOf tabs ot' (lws l) :: levels tabs ot' ls

/-- `osp.read_block` on an eager token list, with the `lev` counter the source
keeps (a Python int, so it may go negative).  Returns the pair of the tokens
passed to the callback (every consumed token, in order, except a final
`DEDENT` that brings `lev` to `0`, since `break` precedes the callback call)
and the unconsumed remainder of the stream. -/
def readBlock (lev : Int) : List Tok → List Tok × List Tok
  | [] => ([], [])
  | t :: ts =>
    match t with
    | .INDENT =>
      let p := readBlock (lev + 1) ts
      (t :: p.1, p.2)
    | .DEDENT =>
      if lev - 1 = 0 then ([], ts)
      else
        let p := readBlock (lev - 1) ts
        (t :: p.1, p.2)
    | .content _ =>
      let p := readBlock lev ts
      (t :: p.1, p.2)

end OSP

namespace TML

open OSP (Tok)

/-- The Python exceptions the core can raise (`tml.py`), plus two modelling
artifacts: `recursionError` stands for Python's recursion limit (group
selectors may recurse unboundedly), and `noneTime` marks the corner where
`time_bounds` would return `None` bounds (a set whose only element is `None`),
which this embedding cannot represent as a rational span. -/
inductive PyErr where
  | indexError : PyErr
  | valueError : PyErr
  | typeError : PyErr
  | stopIteration : PyErr
  | attributeError : PyErr
  | recursionError : PyErr
  | noneTime : PyErr
deriving DecidableEq, Repr

/-- Python `str.split()`: split on runs of whitespace, dropping empties. -/
def pySplitGo : List Char → List Char → List String
  | [], acc => if acc = [] then [] else [String.mk acc.reverse]
  | c :: cs, acc =>
    if OSP.isStripWS c then
      if acc = [] then pySplitGo cs []
      else String.mk acc.reverse :: pySplitGo cs []
    else pySplitGo cs (c :: acc)

/-- `t.split()` on a content token. -/
def pySplit (s : String) : List String := pySplitGo s.toList []

/-- `' '.join(words)`. -/
def joinWords (l : List String) : String := String.intercalate " " l

/-- Value of a decimal digit character. -/
def digitVal (c : Char) : Nat := c.toNat - '0'.toNat

/-- All-digit strings to numbers (`none` when empty or non-digit). -/
def digitsToNat (l : List Char) : Option Nat :=
  if l = [] then none
  else if l.all (·.isDigit) then some (l.foldl (fun n c => n * 10 + digitVal c) 0)
  else none

/-- Python `int(s)` on the selector index strings this language uses
(optional sign, decimal digits); `none` models the `ValueError`. -/
def pyInt (s : String) : Option Int :=
  match s.toList with
  | '-' :: rest => (digitsToNat rest).map (fun n => -(n : Int))
  | '+' :: rest => (digitsToNat rest).map (fun n => (n : Int))
  | l => (digitsToNat l).map (fun n => (n : Int))

/-- Digits folded into a number, empty list giving 0 (for fraction parts). -/
def digitsVal (l : List Char) : Nat := l.foldl (fun n c => n * 10 + digitVal c) 0

/-- Python `float(s)` on the plain decimal literals this language uses
(optional sign, digits, optional fraction); `none` models the `ValueError`.
Exponents, `inf` and `nan` never occur in timeline sources. -/
def pyFloat (s : String) : Option ℚ :=
  let core : List Char → Option ℚ := fun l =>
    let ip := l.takeWhile (·.isDigit)
    let rest := l.dropWhile (·.isDigit)
    match rest with
    | [] => if ip = [] then none else some ((digitsVal ip : ℚ))
    | '.' :: fp =>
      if fp.all (·.isDigit) && !(ip = [] && fp = []) then
        some (mkRat (digitsVal ip * 10 ^ fp.length + digitsVal fp) (10 ^ fp.length))
      else none
    | _ => none
  match s.toList with
  | '-' :: rest => (core rest).map (fun q => -q)
  | '+' :: rest => core rest
  | l => core l

/-- `parts[1]`, raising `IndexError` when absent. -/
def listGet1 (parts : List String) : Except PyErr String :=
  match parts.get? 1 with
  | some s => .ok s
  | none => .error .indexError

/-- `float(parts[1])` with its `ValueError`. -/
def pyFloatE (s : String) : Except PyErr ℚ :=
  match pyFloat s with
  | some q => .ok q
  | none => .error .valueError

/-- One token of a selector.  Parsed selectors hold strings only; the
constraints synthesized during linking embed the Python int `-1`
(`[par.name, -1, 'end']`), so a selector token is a string or an int. -/
inductive SelTok where
  | s : String → SelTok
  | i : Int → SelTok
deriving DecidableEq, Repr

/-- `int(sel[1])`: ints pass through, strings are parsed. -/
def selAsInt : SelTok → Except PyErr Int
  | .s v =>
    match pyInt v with
    | some n => .ok n
    | none => .error .valueError
  | .i v => .ok v

/-- A completed `Span` (closed interval with its opening/closing words).  In
the source a pending span temporarily has `end`/`eword` set to `None`; the
parser state below models that pending stage as a separate `(start, sword)`
pair, so `Span` here always holds both bounds. -/
structure Span where
  start : ℚ
  sword : String
  end_ : ℚ
  eword : String
deriving DecidableEq, Repr

/-- A reference slot: before linking a name string, after linking a Python
object reference.  Object references are modelled as indices into the
document's range list (insertion order); crucially, a `ref` is never equal to
any string, so `x in tml.ranges` (a string-keyed dict) is false for it. -/
inductive NameOrRef where
  | nm : String → NameOrRef
  | ref : Nat → NameOrRef
deriving DecidableEq, Repr

structure Event where
  desc : Option String
  time : Option ℚ
  from_rg : List NameOrRef
  with_rg : List NameOrRef
  classes : List String
  name : Option String
  idx : Option Nat
deriving DecidableEq, Repr

/-- `Range` and its `Character` specialization in one structure: a plain
`Range` has `parents = none` (no `parents` attribute), a `Character` has
`parents = some l` (the source checks `hasattr(rg, 'parents')`). -/
structure Range where
  name : String
  dispname : Option String
  classes : List String
  spans : List Span
  idx : Option Nat
  ambient : Bool
  hanging_events : List Nat
  gender : Option String
  parents : Option (List NameOrRef)
deriving DecidableEq, Repr

structure Constraint where
  name : Option String
  before : Option (List SelTok)
  after : Option (List SelTok)
  offset : ℚ
  strict : Bool
deriving DecidableEq, Repr

structure Group where
  name : Option String
  evs : List (List String)
deriving DecidableEq, Repr

/-- Transient selector-evaluation result: a name and a set of times.  The
set is modelled as a list; an element is `none` when the Python set holds
`None` (an event with no time selected before culling). -/
structure GroupResult where
  name : Option String
  times : List (Option ℚ)
deriving DecidableEq, Repr

/-- The structured diagnostics channel: one constructor per distinct warning
the source prints, with the offending data as payload. -/
inductive Diag where
  | rootIndent : Diag
  | rootDedent : Diag
  | unknownBlock : String → Diag
  | desync : String → Diag
  | rangeOverwrite : String → Diag
  | unexpectedIndent : String → Diag
  | overwriteSpan : String → String → ℚ → Diag
  | noPrevSpan : List String → Diag
  | unhandledDirective : String → List String → Diag
  | eofBlock : String → Diag
  | culled : Nat → Diag
  | linkFailed : String → List NameOrRef → Diag
  | parentsFailed : String → List NameOrRef → Diag
  | selectorUnresolved : List SelTok → Diag
  | constraintViolated : Option String → Diag
  | groupUnresolvable : Option String → List String → Diag
  | checkInvalid : Option String → Diag
  | checkUnsat : Option String → Diag
  | allPassed : Diag
deriving DecidableEq, Repr

/-- The `Timeline` document: a string-keyed insertion-ordered mapping of
ranges, an event list, the constraint bag (a Python `set` whose membership
test is object identity, hence effectively a bag: modelled as a list), and
the group mapping. -/
structure Timeline where
  ranges : List Range
  events : List Event
  constraints : List Constraint
  groups : List Group
  universal_evs : Option Nat
deriving DecidableEq, Repr

def Timeline.empty : Timeline := ⟨[], [], [], [], none⟩

/-- Python `set.add` on a list model: append only when absent. -/
def addString (l : List String) (s : String) : List String :=
  if l.any (fun y => y = s) then l else l ++ [s]

/-- `set.add` of a name into a reference set. -/
def addNm (l : List NameOrRef) (s : String) : List NameOrRef :=
  if l.any (fun y => y = NameOrRef.nm s) then l else l ++ [NameOrRef.nm s]

/-- `set.add` of a selector tuple into a group's member set. -/
def addTuple (l : List (List String)) (t : List String) : List (List String) :=
  if l.any (fun y => y = t) then l else l ++ [t]

/-- Dict insertion `d[key x] = x`: replace the first entry with the same key
(dicts keep the original position on overwrite), else append. -/
def putByKey {α β : Type} [DecidableEq β] (key : α → β) (a : α) : List α → List α
  | [] => [a]
  | x :: xs => if key x = key a then a :: xs else x :: putByKey key a xs

/-- The argument type of `Timeline.add`: the results the builders produce
(`Sequence` yields a list of constraints, flattened by `add`). -/
inductive AddObj where
  | rng : Range → AddObj
  | ev : Event → AddObj
  | con : Constraint → AddObj
  | grp : Group → AddObj
  | cons : List Constraint → AddObj

/-- `Timeline.add`: dispatch on the object kind.  A range whose name is
already a key is overwritten with a warning; a group overwrite is silent;
events and constraints are appended (the constraint `set` dedupes by object
identity only, so fresh objects always enter). -/
def Timeline.add (tml : Timeline) : AddObj → Timeline × List Diag
  | .rng r =>
    ({ tml with ranges := putByKey (fun x => x.name) r tml.ranges },
      if tml.ranges.any (fun x => x.name = r.name) then [.rangeOverwrite r.name] else [])
  | .ev e => ({ tml with events := tml.events ++ [e] }, [])
  | .con c => ({ tml with constraints := tml.constraints ++ [c] }, [])
  | .grp g => ({ tml with groups := putByKey (fun x => x.name) g tml.groups }, [])
  | .cons l => ({ tml with constraints := tml.constraints ++ l }, [])

/-- `' '.join(hdr[1:])` as an optional entity name: set only when the header
has more than one word (`if len(hdr) > 1`). -/
def hdrName (hdr : List String) : Option String :=
  if hdr.length > 1 then some (joinWords hdr.tail) else none

/-- `BEGIN_WORDS`: `{'begin'}`, extended by `Character` with `born`/`raised`. -/
def beginWords (isChar : Bool) : List String :=
  if isChar then ["begin", "born", "raised"] else ["begin"]

/-- `END_WORDS`: `{'end'}`, extended by `Character` with `died`/`living`. -/
def endWords (isChar : Bool) : List String :=
  if isChar then ["end", "died", "living"] else ["end"]

/-- Parser state of `Range.from_tokens`: the instance under construction, the
pending `cur_span` (its start and opening word; `end`/`eword` are still
`None` at this stage in the source), and the diagnostics so far. -/
structure RState where
  inst : Range
  curSpan : Option (ℚ × String)
  diags : List Diag
deriving DecidableEq, Repr

/-- Initial parser state for a `char` block header. -/
def charInit (hdr : List String) : RState :=
  { inst := { name := joinWords hdr.tail, dispname := none, classes := [],
              spans := [], idx := none, ambient := false, hanging_events := [],
              gender := none, parents := some [] },
    curSpan := none, diags := [] }

/-- One directive line of a `Range`/`Character` block body.  Matches the
source's dispatch order: begin-words, end-words, `class`, `name`, `ambient`,
then `unhandled_directive` (which `Character` overrides with `gender` and
`parent`, silently ignoring anything else; plain `Range` warns). -/
def rangeLine (isChar : Bool) (st : RState) (parts : List String) : Except PyErr RState :=
  match parts with
  | [] => .error .indexError
  | cmd :: args =>
    if (beginWords isChar).any (fun w => w = cmd) then
      match listGet1 parts with
      | .error e => .error e
      | .ok a =>
        match pyFloatE a with
        | .error e => .error e
        | .ok q =>
          let ds :=
            match st.curSpan with
            | some (s0, w0) => [Diag.overwriteSpan st.inst.name w0 s0]
            | none => []
          .ok { st with curSpan := some (q, cmd), diags := st.diags ++ ds }
    else if (endWords isChar).any (fun w => w = cmd) then
      match st.curSpan with
      | none => .ok { st with diags := st.diags ++ [Diag.noPrevSpan parts] }
      | some (s0, w0) =>
        match listGet1 parts with
        | .error e => .error e
        | .ok a =>
          match pyFloatE a with
          | .error e => .error e
          | .ok q =>
            .ok { st with
                  inst := { st.inst with spans := st.inst.spans ++ [⟨s0, w0, q, cmd⟩] },
                  curSpan := none }
    else if cmd = "class" then
      .ok { st with inst := { st.inst with classes := args.foldl addString st.inst.classes } }
    else if cmd = "name" then
      .ok { st with inst := { st.inst with dispname := some (joinWords args) } }
    else if cmd = "ambient" then
      .ok { st with inst := { st.inst with ambient := true } }
    else
      if isChar then
        if cmd = "gender" then
          match listGet1 parts with
          | .error e => .error e
          | .ok a => .ok { st with inst := { st.inst with gender := some a } }
        else if cmd = "parent" then
          .ok { st with inst := { st.inst with
                parents := some (args.foldl addNm (st.inst.parents.getD [])) } }
        else .ok st
      else .ok { st with diags := st.diags ++ [Diag.unhandledDirective "range" parts] }

/-- Finalisation of a `Range` block: `inst.spans.sort(key=start)` (Python's
sort is stable; so is insertion sort). -/
def spanLe (a b : Span) : Prop := a.start ≤ b.start

instance : DecidableRel spanLe := fun a b => inferInstanceAs (Decidable (a.start ≤ b.start))

def finishRange (rg : Range) : Range := { rg with spans := rg.spans.insertionSort spanLe }

/-- The token loop of `Range.from_tokens`: warn on unexpected `INDENT`,
finish on `DEDENT`, skip empty content, dispatch directives; end of input is
interpreted as the end of the block with a warning. -/
def rangeAux (isChar : Bool) : RState → List Tok → Except PyErr (Range × List Diag × List Tok)
  | st, [] => .ok (finishRange st.inst, st.diags ++ [Diag.eofBlock "range"], [])
  | st, t :: ts =>
    match t with
    | .INDENT => rangeAux isChar { st with diags := st.diags ++ [Diag.unexpectedIndent "range"] } ts
    | .DEDENT => .ok (finishRange st.inst, st.diags, ts)
    | .content s =>
      if s = "" then rangeAux isChar st ts
      else
        match rangeLine isChar st (pySplit s) with
        | .error e => .error e
        | .ok st' => rangeAux isChar st' ts

/-- One directive line of an `Event` block body. -/
def eventLine (ev : Event) (ds : List Diag) (parts : List String) :
    Except PyErr (Event × List Diag) :=
  match parts with
  | [] => .error .indexError
  | cmd :: args =>
    if cmd = "at" then
      match listGet1 parts with
      | .error e => .error e
      | .ok a =>
        match pyFloatE a with
        | .error e => .error e
        | .ok q => .ok ({ ev with time := some q }, ds)
    else if cmd = "desc" then .ok ({ ev with desc := some (joinWords args) }, ds)
    else if cmd = "from" then .ok ({ ev with from_rg := args.foldl addNm ev.from_rg }, ds)
    else if cmd = "with" then .ok ({ ev with with_rg := args.foldl addNm ev.with_rg }, ds)
    else if cmd = "class" then .ok ({ ev with classes := args.foldl addString ev.classes }, ds)
    else .ok (ev, ds ++ [Diag.unhandledDirective "event" parts])

/-- The token loop of `Event.from_tokens`. -/
def eventAux : Event → List Diag → List Tok → Except PyErr (Event × List Diag × List Tok)
  | ev, ds, [] => .ok (ev, ds ++ [Diag.eofBlock "event"], [])
  | ev, ds, t :: ts =>
    match t with
    | .INDENT => eventAux ev (ds ++ [Diag.unexpectedIndent "event"]) ts
    | .DEDENT => .ok (ev, ds, ts)
    | .content s =>
      if s = "" then eventAux ev ds ts
      else
        match eventLine ev ds (pySplit s) with
        | .error e => .error e
        | .ok (ev', ds') => eventAux ev' ds' ts

/-- One directive line of a `Constraint` block body. -/
def constraintLine (c : Constraint) (ds : List Diag) (parts : List String) :
    Except PyErr (Constraint × List Diag) :=
  match parts with
  | [] => .error .indexError
  | cmd :: args =>
    if cmd = "before" then .ok ({ c with before := some (args.map SelTok.s) }, ds)
    else if cmd = "after" then .ok ({ c with after := some (args.map SelTok.s) }, ds)
    else if cmd = "offset" then
      match listGet1 parts with
      | .error e => .error e
      | .ok a =>
        match pyFloatE a with
        | .error e => .error e
        | .ok q => .ok ({ c with offset := q }, ds)
    else if cmd = "strict" then .ok ({ c with strict := true }, ds)
    else .ok (c, ds ++ [Diag.unhandledDirective "constraint" parts])

/-- The token loop of `Constraint.from_tokens`. -/
def constraintAux : Constraint → List Diag → List Tok →
    Except PyErr (Constraint × List Diag × List Tok)
  | c, ds, [] => .ok (c, ds ++ [Diag.eofBlock "constraint"], [])
  | c, ds, t :: ts =>
    match t with
    | .INDENT => constraintAux c (ds ++ [Diag.unexpectedIndent "constraint"]) ts
    | .DEDENT => .ok (c, ds, ts)
    | .content s =>
      if s = "" then constraintAux c ds ts
      else
        match constraintLine c ds (pySplit s) with
        | .error e => .error e
        | .ok (c', ds') => constraintAux c' ds' ts

/-- The token loop of `Group.from_tokens` (`event` lines collected into a set
of selector tuples). -/
def groupAux : Group → List Diag → List Tok → Except PyErr (Group × List Diag × List Tok)
  | g, ds, [] => .ok (g, ds ++ [Diag.eofBlock "group"], [])
  | g, ds, t :: ts =>
    match t with
    | .INDENT => groupAux g (ds ++ [Diag.unexpectedIndent "group"]) ts
    | .DEDENT => .ok (g, ds, ts)
    | .content s =>
      if s = "" then groupAux g ds ts
      else
        match pySplit s with
        | [] => .error .indexError
        | cmd :: args =>
          if cmd = "event" then groupAux { g with evs := addTuple g.evs args } ds ts
          else groupAux g (ds ++ [Diag.unhandledDirective "group" (cmd :: args)]) ts

/-- Python string formatting of the optional sequence name (`f'{nm}_{idx}'`
renders `None` as `"None"`). -/
def optNameStr : Option String → String
  | some s => s
  | none => "None"

/-- The token loop of `Sequence.from_tokens`: consecutive `event` selectors
are chained into auto-named non-strict, zero-offset constraints. -/
def sequenceAux (nm : Option String) :
    List Constraint → Nat → Option (List String) → List Diag → List Tok →
    Except PyErr (List Constraint × List Diag × List Tok)
  | cons, _, _, ds, [] => .ok (cons, ds ++ [Diag.eofBlock "sequence"], [])
  | cons, idx, lastev, ds, t :: ts =>
    match t with
    | .INDENT => sequenceAux nm cons idx lastev (ds ++ [Diag.unexpectedIndent "sequence"]) ts
    | .DEDENT => .ok (cons, ds, ts)
    | .content s =>
      if s = "" then sequenceAux nm cons idx lastev ds ts
      else
        match pySplit s with
        | [] => .error .indexError
        | cmd :: args =>
          if cmd = "event" then
            match lastev with
            | some l =>
              sequenceAux nm
                (cons ++ [{ name := some (optNameStr nm ++ "_" ++ toString idx),
                            before := some (l.map SelTok.s), after := some (args.map SelTok.s),
                            offset := 0, strict := false }])
                (idx + 1) (some args) ds ts
            | none => sequenceAux nm cons idx (some args) ds ts
          else sequenceAux nm cons idx lastev (ds ++ [Diag.unhandledDirective "sequence" (cmd :: args)]) ts

/-- Dispatch to the builder selected by the block's first word, yielding the
object to `add`. -/
def runBuilder (w : String) (hdr : List String) (ts : List Tok) :
    Except PyErr (AddObj × List Diag × List Tok) :=
  if w = "char" then
    match rangeAux true (charInit hdr) ts with
    | .error e => .error e
    | .ok (rg, ds, rest) => .ok (.rng rg, ds, rest)
  else if w = "event" then
    match eventAux { desc := none, time := none, from_rg := [], with_rg := [],
                     classes := [], name := hdrName hdr, idx := none } [] ts with
    | .error e => .error e
    | .ok (ev, ds, rest) => .ok (.ev ev, ds, rest)
  else if w = "constraint" then
    match constraintAux { name := hdrName hdr, before := none, after := none,
                          offset := 0, strict := false } [] ts with
    | .error e => .error e
    | .ok (c, ds, rest) => .ok (.con c, ds, rest)
  else if w = "group" then
    match groupAux { name := hdrName hdr, evs := [] } [] ts with
    | .error e => .error e
    | .ok (g, ds, rest) => .ok (.grp g, ds, rest)
  else
    match sequenceAux (hdrName hdr) [] 0 none [] ts with
    | .error e => .error e
    | .ok (cs, ds, rest) => .ok (.cons cs, ds, rest)

/-- The top-level token loop of `Timeline.from_tokens`, with a fuel counter
bounding the number of loop iterations (each iteration consumes at least one
token, so `length + 1` fuel always suffices; `recursionError` is never
reached from `Timeline.fromTokens`). -/
def fromTokensGo : Nat → Timeline → List Diag → List Tok → Except PyErr (Timeline × List Diag)
  | 0, _, _, _ => .error .recursionError
  | _ + 1, inst, acc, [] => .ok (inst, acc)
  | fuel + 1, inst, acc, t :: rest =>
    match t with
    | .INDENT => fromTokensGo fuel inst (acc ++ [Diag.rootIndent]) rest
    | .DEDENT => fromTokensGo fuel inst (acc ++ [Diag.rootDedent]) rest
    | .content s =>
      if s = "" then fromTokensGo fuel inst acc rest
      else
        match pySplit s with
        | [] => .error .indexError
        | w :: wrest =>
          if w = "comment" then
            fromTokensGo fuel inst acc (OSP.readBlock 0 rest).2
          else if !(["char", "event", "constraint", "sequence", "group"].any (fun k => k = w)) then
            fromTokensGo fuel inst (acc ++ [Diag.unknownBlock w]) (OSP.readBlock 0 rest).2
          else
            match rest with
            | [] => .error .stopIteration
            | t2 :: rest2 =>
              if t2 = Tok.INDENT then
                match runBuilder w (w :: wrest) rest2 with
                | .error e => .error e
                | .ok (obj, ds, rest3) =>
                  match Timeline.add inst obj with
                  | (inst', ds2) => fromTokensGo fuel inst' (acc ++ ds ++ ds2) rest3
              else fromTokensGo fuel inst (acc ++ [Diag.desync w]) rest2

/-- `Timeline.from_tokens` on an eager token list. -/
def Timeline.fromTokens (ts : List Tok) : Except PyErr (Timeline × List Diag) :=
  fromTokensGo (ts.length + 1) Timeline.empty [] ts

/-- Python `min`/`max` of a set of times, the set holding rationals and
possibly `None`: empty set raises `ValueError`; a one-element set returns its
element (even `None`) without any comparison; otherwise comparing `None` with
a number raises `TypeError`.  The list is dedup'd first because it models a
set. -/
def pySetMax (l : List (Option ℚ)) : Except PyErr (Option ℚ) :=
  match l.dedup with
  | [] => .error .valueError
  | [x] => .ok x
  | x :: xs =>
    if (x :: xs).all (fun y => y.isSome) then
      match (x :: xs).filterMap id with
      | [] => .error .typeError
      | q :: qs => .ok (some (qs.foldl max q))
    else .error .typeError

/-- `min` counterpart of `pySetMax`. -/
def pySetMin (l : List (Option ℚ)) : Except PyErr (Option ℚ) :=
  match l.dedup with
  | [] => .error .valueError
  | [x] => .ok x
  | x :: xs =>
    if (x :: xs).all (fun y => y.isSome) then
      match (x :: xs).filterMap id with
      | [] => .error .typeError
      | q :: qs => .ok (some (qs.foldl min q))
    else .error .typeError

/-- The time set collected by `Timeline.time_bounds`: every span bound of
every range plus every event time (possibly `None` before culling). -/
def timeBoundsList (tml : Timeline) : List (Option ℚ) :=
  (tml.ranges.flatMap fun rg => rg.spans.flatMap fun sp => [some sp.start, some sp.end_])
    ++ tml.events.map (fun ev => ev.time)

/-- `Timeline.time_bounds`: `min(tms), max(tms)`.  A `None` bound (possible
only when the dedup'd set is exactly `{None}`) cannot inhabit a rational
span, so it surfaces as the modelling error `noneTime` (Python would carry
the `None` into an ambient span and fail later when it is compared). -/
def Timeline.time_bounds (tml : Timeline) : Except PyErr (ℚ × ℚ) :=
  match pySetMin (timeBoundsList tml) with
  | .error e => .error e
  | .ok none => .error .noneTime
  | .ok (some a) =>
    match pySetMax (timeBoundsList tml) with
    | .error e => .error e
    | .ok none => .error .noneTime
    | .ok (some b) => .ok (a, b)

/-- The reference-resolution comprehension
`set(tml.ranges[nm] for nm in sval if nm in tml.ranges)`: a string resolves
to the object stored under that key (here: the index of the first range with
that name); an object reference is never a dict key, so it is dropped. -/
def resolveSet (ranges : List Range) (l : List NameOrRef) : List NameOrRef :=
  (l.filterMap fun x =>
    match x with
    | .nm s => (ranges.findIdx? (fun r => r.name = s)).map NameOrRef.ref
    | .ref _ => none).dedup

/-- `sval - set(rg.name for rg in nval)`: the elements reported as failing to
link.  A string survives iff no range has that name; an object reference is
never equal to a name string, so it always survives. -/
def unresolvedSet (ranges : List Range) (l : List NameOrRef) : List NameOrRef :=
  l.filter fun x =>
    match x with
    | .nm s => !(ranges.any (fun r => r.name = s))
    | .ref _ => true

/-- `Range.link` / `Character.link`: an ambient range replaces its span list
with one span covering the document's time bounds; a character then resolves
its parent names, reporting the unresolved ones. -/
def Range.link (tml : Timeline) (rg : Range) : Except PyErr (Range × List Diag) :=
  let amb : Except PyErr Range :=
    if rg.ambient then
      match tml.time_bounds with
      | .error e => .error e
      | .ok (mnt, mxt) => .ok { rg with spans := [⟨mnt, "begin", mxt, "end"⟩] }
    else .ok rg
  match amb with
  | .error e => .error e
  | .ok rg1 =>
    match rg1.parents with
    | none => .ok (rg1, [])
    | some ps =>
      let nval := resolveSet tml.ranges ps
      let diff := unresolvedSet tml.ranges ps
      .ok ({ rg1 with parents := some nval },
           if diff.isEmpty then [] else [Diag.parentsFailed rg1.name diff])

/-- Step 1 of `Timeline.link`: each range is linked against the document as
it stands at that moment (earlier ranges already updated in place, as the
Python loop mutates the shared dict), then given its insertion-order idx. -/
def linkRangesGo (tml : Timeline) (done : List Range) (acc : List Diag) :
    List Range → Except PyErr (List Range × List Diag)
  | [] => .ok (done, acc)
  | rg :: rest =>
    match Range.link { tml with ranges := done ++ rg :: rest } rg with
    | .error e => .error e
    | .ok (rg', ds) =>
      linkRangesGo tml (done ++ [{ rg' with idx := some done.length }]) (acc ++ ds) rest

/-- Sort key of the event sort (`key=lambda ev: ev.time`); all events kept at
that point have a time, so the default is irrelevant. -/
def evKeyQ (ev : Event) : ℚ := ev.time.getD 0

def evTimeLe (a b : Event) : Prop := evKeyQ a ≤ evKeyQ b

instance : DecidableRel evTimeLe := fun a b => inferInstanceAs (Decidable (evKeyQ a ≤ evKeyQ b))

instance : IsTotal Event evTimeLe := ⟨fun a b => le_total (evKeyQ a) (evKeyQ b)⟩

instance : IsTrans Event evTimeLe := ⟨fun _ _ _ h1 h2 => le_trans h1 h2⟩

/-- Sort key used to pick the with-range with the greatest idx
(`sorted(self.with_rg, key=lambda rg: rg.idx)[-1]`); every range has an idx
by this point. -/
def wKey (ranges : List Range) (x : NameOrRef) : Nat :=
  match x with
  | .ref j => ((ranges.get? j).bind (fun r => r.idx)).getD 0
  | .nm _ => 0

def wIdxLe (ranges : List Range) (a b : NameOrRef) : Prop := wKey ranges a ≤ wKey ranges b

instance (ranges : List Range) : DecidableRel (wIdxLe ranges) :=
  fun a b => inferInstanceAs (Decidable (wKey ranges a ≤ wKey ranges b))

/-- `Event.link`: resolve the `from`/`with` name sets against the range
mapping (warning for the dropped elements), then attach the event to the
with-range with the greatest idx as a hanging event.  The event is identified
by its position `evIdx` in the document's (sorted) event list. -/
def Event.link (ranges : List Range) (evIdx : Nat) (ev : Event) :
    Event × List Range × List Diag :=
  let nf := resolveSet ranges ev.from_rg
  let df := unresolvedSet ranges ev.from_rg
  let d1 := if df.isEmpty then [] else [Diag.linkFailed "from_rg" df]
  let nw := resolveSet ranges ev.with_rg
  let dw := unresolvedSet ranges ev.with_rg
  let d2 := if dw.isEmpty then [] else [Diag.linkFailed "with_rg" dw]
  let ev' := { ev with from_rg := nf, with_rg := nw }
  if nw.isEmpty then (ev', ranges, d1 ++ d2)
  else
    match (nw.insertionSort (wIdxLe ranges)).getLast? with
    | some (.ref j) =>
      match ranges.get? j with
      | some r =>
        (ev', ranges.set j { r with hanging_events := r.hanging_events ++ [evIdx] }, d1 ++ d2)
      | none => (ev', ranges, d1 ++ d2)
    | _ => (ev', ranges, d1 ++ d2)

/-- Step 3 of `Timeline.link`: link each surviving event in order. -/
def linkEventsGo (ranges : List Range) (done : List Event) (acc : List Diag) :
    List Event → List Event × List Range × List Diag
  | [] => (done, ranges, acc)
  | ev :: rest =>
    match Event.link ranges done.length ev with
    | (ev', ranges', ds) => linkEventsGo ranges' (done ++ [ev']) (acc ++ ds) rest

/-- `Event.is_universal`: no `from` and no `with` references. -/
def Event.is_universal (ev : Event) : Bool := ev.from_rg.isEmpty && ev.with_rg.isEmpty

/-- Step 4 of `Timeline.link` on the reversed event list: sequential idx for
the universal events only. -/
def assignUIGo (idx : Nat) : List Event → List Event × Nat
  | [] => ([], idx)
  | e :: es =>
    if e.is_universal then
      match assignUIGo (idx + 1) es with
      | (r, n) => ({ e with idx := some idx } :: r, n)
    else
      match assignUIGo idx es with
      | (r, n) => (e :: r, n)

/-- Walk the events in descending order (`for ev in reversed(self.events)`)
assigning universal-event indices; also returns the final counter
(`universal_evs`). -/
def assignUniversalIdx (evs : List Event) : List Event × Nat :=
  match assignUIGo 0 evs.reverse with
  | (r, n) => (r.reverse, n)

/-- `par.name` during constraint synthesis: the parent is expected to be an
object reference (a string here would be Python's
`'str' object has no attribute 'name'`). -/
def parName (ranges : List Range) : NameOrRef → Except PyErr String
  | .ref j =>
    match ranges.get? j with
    | some r => .ok r.name
    | none => .error .indexError
  | .nm _ => .error .attributeError

/-- The two constraints synthesized for one (character, parent) pair in
step 5 of `Timeline.link`. -/
def synthForParent (rgName : String) (pn : String) : List Constraint :=
  [ { name := some (rgName ++ "_born_after_" ++ pn),
      before := some [SelTok.s pn], after := some [SelTok.s rgName],
      offset := 0, strict := false },
    { name := some (rgName ++ "_born_predeath_" ++ pn),
      before := some [SelTok.s rgName],
      after := some [SelTok.s pn, SelTok.i (-1), SelTok.s "end"],
      offset := 0, strict := false } ]

/-- The inner `for par in rg.parents` loop of step 5 of `Timeline.link`:
two constraints per parent, in parent order. -/
def synthParentsGo (all : List Range) (nm : String) : List NameOrRef → Except PyErr (List Constraint)
  | [] => .ok []
  | par :: ps =>
    match parName all par with
    | .error e => .error e
    | .ok pn =>
      match synthParentsGo all nm ps with
      | .error e => .error e
      | .ok more => .ok (synthForParent nm pn ++ more)

/-- Step 5 of `Timeline.link`: for every range that has a (resolved) parents
attribute, add the two synthesized constraints per parent. -/
def synthConsGo (all : List Range) : List Range → Except PyErr (List Constraint)
  | [] => .ok []
  | rg :: rest =>
    match rg.parents with
    | none => synthConsGo all rest
    | some ps =>
      match synthParentsGo all rg.name ps with
      | .error e => .error e
      | .ok here =>
        match synthConsGo all rest with
        | .error e => .error e
        | .ok more => .ok (here ++ more)

def synthCons (ranges : List Range) : Except PyErr (List Constraint) :=
  synthConsGo ranges ranges

/-- `Timeline.link`: the five fixed steps (range link + idx assignment;
event filtering and stable sort by time with culled-count warning; event
reference resolution; universal-event indices on the reversed list; implicit
parent-constraint synthesis). -/
def Timeline.link (tml : Timeline) : Except PyErr (Timeline × List Diag) :=
  match linkRangesGo tml [] [] tml.ranges with
  | .error e => .error e
  | .ok (ranges1, d1) =>
    let evs1 := (tml.events.filter (fun ev => ev.time.isSome)).insertionSort evTimeLe
    let d2 := if evs1.length = tml.events.length then []
              else [Diag.culled (tml.events.length - evs1.length)]
    match linkEventsGo ranges1 [] [] evs1 with
    | (evs2, ranges2, d3) =>
      match assignUniversalIdx evs2 with
      | (evs3, uc) =>
        match synthCons ranges2 with
        | .error e => .error e
        | .ok newCons =>
          .ok ({ ranges := ranges2, events := evs3,
                 constraints := tml.constraints ++ newCons,
                 groups := tml.groups, universal_evs := some uc }, d1 ++ d2 ++ d3)

/-- `tml.groups.get(sel[0])` (group keys are names; an int selector token
matches no string key). -/
def selGroupLookup (tml : Timeline) : SelTok → Option Group
  | .s v => tml.groups.find? (fun g => g.name = some v)
  | .i _ => none

/-- `tml.ranges.get(sel[0])`. -/
def selRangeLookup (tml : Timeline) : SelTok → Option Range
  | .s v => tml.ranges.find? (fun r => r.name = v)
  | .i _ => none

/-- The name a selector head contributes to a `GroupResult`. -/
def selNameOf : SelTok → Option String
  | .s v => some v
  | .i _ => none

/-- `rg.spans[idx]` with Python's negative-index semantics. -/
def pyIndex {α : Type} (l : List α) (i : Int) : Except PyErr α :=
  if 0 ≤ i then
    match l.get? i.toNat with
    | some a => .ok a
    | none => .error .indexError
  else
    let k := (-i).toNat
    if k ≤ l.length then
      match l.get? (l.length - k) with
      | some a => .ok a
      | none => .error .indexError
    else .error .indexError

/-- `getattr(span, prop)` for the two numeric properties the selector
language uses.  `sword`/`eword` (strings) are deliberately not modelled:
selecting them would make the later `max`/`min`/comparison mix strings and
numbers, which no claim exercises; any other property is an
`AttributeError`. -/
def Span.getProp (sp : Span) : SelTok → Except PyErr ℚ
  | .s v =>
    if v = "start" then .ok sp.start
    else if v = "end" then .ok sp.end_
    else .error .attributeError
  | .i _ => .error .attributeError

/-- `Constraint.select` together with the member loop of
`Group.into_result`, as one fuel-indexed step function (`inl` = a `select`
call, `inr` = the state of a member loop).  The fuel, spent once per
recursive evaluation step, models the Python recursion limit that bounds
group nesting; it is a modelling artifact and every claim either quantifies
over it or supplies a sufficient amount. -/
def selStep (tml : Timeline) :
    Nat → List SelTok ⊕ Option String × List (List String) × List (Option ℚ) × List Diag →
    Except PyErr (Option GroupResult × List Diag)
  | 0, _ => .error .recursionError
  | fuel + 1, .inl sel =>
    match sel with
    | [] => .error .indexError
    | s0 :: _ =>
      match selGroupLookup tml s0 with
      | some grp => selStep tml fuel (.inr (grp.name, grp.evs, [], []))
      | none =>
        match selRangeLookup tml s0 with
        | some rg =>
          let prop := if sel.length > 1 then (sel.getLast?).getD (SelTok.s "start")
                      else SelTok.s "start"
          let idxE : Except PyErr Int :=
            if sel.length > 2 then selAsInt (sel.getD 1 (SelTok.s "")) else .ok 0
          match idxE with
          | .error e => .error e
          | .ok idxv =>
            match pyIndex rg.spans idxv with
            | .error e => .error e
            | .ok sp =>
              match sp.getProp prop with
              | .error e => .error e
              | .ok q => .ok (some ⟨selNameOf s0, [some q]⟩, [])
        | none =>
          match s0 with
          | .s v =>
            match tml.events.find? (fun ev => ev.name = some v) with
            | some ev => .ok (some ⟨some v, [ev.time]⟩, [])
            | none => .ok (none, [])
          | .i _ => .ok (none, [])
  | _ + 1, .inr (gname, [], acc, accd) => .ok (some ⟨gname, acc⟩, accd)
  | fuel + 1, .inr (gname, ev :: evs, acc, accd) =>
    match selStep tml fuel (.inl (ev.map SelTok.s)) with
    | .error e => .error e
    | .ok (none, ds) =>
      selStep tml fuel (.inr (gname, evs, acc, accd ++ ds ++ [Diag.groupUnresolvable gname ev]))
    | .ok (some gr, ds) => selStep tml fuel (.inr (gname, evs, acc ++ gr.times, accd ++ ds))

/-- `Constraint.select` proper: resolve a selector against groups (with
recursive aggregation), then ranges (span index defaulting to `0`, property
defaulting to `"start"`, the last token as property when more than one token,
the second token as index when more than two), then events by exact name;
`none` when nothing matches. -/
def select (tml : Timeline) (fuel : Nat) (sel : List SelTok) :
    Except PyErr (Option GroupResult × List Diag) :=
  selStep tml fuel (.inl sel)

/-- `Constraint.is_valid`. -/
def Constraint.is_valid (c : Constraint) : Bool := c.before.isSome && c.after.isSome

/-- `Constraint.verify`: resolve both selectors (an absent selector is
Python's `None[0]` `TypeError`), report an unresolved side as a failure, and
otherwise compare `max(B)` with `min(A) + offset`, strictly iff `strict`. -/
def Constraint.verify (fuel : Nat) (c : Constraint) (tml : Timeline) :
    Except PyErr (Bool × List Diag) :=
  match c.before with
  | none => .error .typeError
  | some bs =>
    match select tml fuel bs with
    | .error e => .error e
    | .ok (bftO, ds1) =>
      match c.after with
      | none => .error .typeError
      | some afs =>
        match select tml fuel afs with
        | .error e => .error e
        | .ok (aftO, ds2) =>
          match bftO with
          | none => .ok (false, ds1 ++ ds2 ++ [Diag.selectorUnresolved bs])
          | some bft =>
            match aftO with
            | none => .ok (false, ds1 ++ ds2 ++ [Diag.selectorUnresolved afs])
            | some aft =>
              match pySetMax bft.times with
              | .error e => .error e
              | .ok mb =>
                match pySetMin aft.times with
                | .error e => .error e
                | .ok ma =>
                  match mb, ma with
                  | some b, some a =>
                    let cond := if c.strict then decide (b < a + c.offset)
                                else decide (b ≤ a + c.offset)
                    .ok (cond, ds1 ++ ds2 ++ if cond then [] else [Diag.constraintViolated c.name])
                  | _, _ => .error .typeError

/-- The constraint loop of `Timeline.check`: skip-and-report invalid
constraints, verify the rest, report the unsatisfied ones, and record the
aggregate "all valid constraints passed" outcome. -/
def checkGo (fuel : Nat) (tml : Timeline) (good : Bool) (acc : List Diag) :
    List Constraint → Except PyErr (Bool × List Diag)
  | [] => .ok (good, acc ++ if good then [Diag.allPassed] else [])
  | c :: cs =>
    if !c.is_valid then checkGo fuel tml good (acc ++ [Diag.checkInvalid c.name]) cs
    else
      match c.verify fuel tml with
      | .error e => .error e
      | .ok (b, ds) =>
        checkGo fuel tml (good && b) (acc ++ ds ++ if b then [] else [Diag.checkUnsat c.name]) cs

/-- `Timeline.check`. -/
def Timeline.check (fuel : Nat) (tml : Timeline) : Except PyErr (Bool × List Diag) :=
  checkGo fuel tml true [] tml.constraints

/-- An error anywhere in the pipeline: a tokenizer error or a Python
exception from parsing, linking or verification. -/
inductive RunErr where
  | tok : OSP.TokErr → RunErr
  | py : PyErr → RunErr
deriving DecidableEq, Repr

/-- The whole pipeline as the `__main__` block runs it (minus the excluded
layout/render stages): tokenize, parse, link, check.  The select fuel `1000`
stands for Python's default recursion limit. -/
def run (tabs : Nat) (lines : List (List Char)) : Except RunErr (Bool × List Diag) :=
  match OSP.tokenize tabs lines with
  | .error e => .error (.tok e)
  | .ok ts =>
    match Timeline.fromTokens ts with
    | .error e => .error (.py e)
    | .ok (tml, d1) =>
      match tml.link with
      | .error e => .error (.py e)
      | .ok (tml1, d2) =>
        match tml1.check 1000 with
        | .error e => .error (.py e)
        | .ok (good, d3) => .ok (good, d1 ++ d2 ++ d3)

end TML

namespace OSP

/-- Written from the wording of the specification (for comparison with the
code-side `levels`): the level of line `i` is its leading space count plus
its leading tab count times an effective width that is `1` while every
indentation run up to and including line `i` is space-free, and the
configured width from the first run containing a space onward. -/
def claimedLevel (tabs : Nat) (lines : List (List Char)) (i : Nat) : Nat :=
  (lws (lines.getD i [])).count ' ' +
    (lws (lines.getD i [])).count '\t' *
      (if (lines.take (i + 1)).all (fun l => !((lws l).contains ' ')) then 1 else tabs)

/-- Balanced token sequences: what lies strictly between a matching
`INDENT`/`DEDENT` pair in a well-formed stream (content tokens and complete
nested blocks). -/
inductive Bal : List Tok → Prop
  | nil : Bal []
  | content (s : String) (ts : List Tok) : Bal ts → Bal (Tok.content s :: ts)
  | nest (b ts : List Tok) : Bal b → Bal ts → Bal (Tok.INDENT :: b ++ Tok.DEDENT :: ts)

end OSP

namespace TML

/-- Total rendering of `par.name` (meaningful whenever `parName` succeeds). -/
def parNameD (ranges : List Range) : NameOrRef → String
  | .ref j => ((ranges.get? j).map (fun r => r.name)).getD ""
  | .nm s => s

/-- The link-invariant part of an event: everything except its reference
sets and its layout index. -/
def Event.core (ev : Event) : Option String × Option ℚ × List String × Option String :=
  (ev.desc, ev.time, ev.classes, ev.name)

/-- The part of a range that event linking leaves untouched (everything but
the hanging-events back-links). -/
def Range.linkCore (rg : Range) :
    String × Option Nat × Bool × List Span × Option (List NameOrRef) :=
  (rg.name, rg.idx, rg.ambient, rg.spans, rg.parents)

end TML

namespace Examples

open OSP TML

/-- The four example lines of the specification: `"\tA"`, `"\t\tB"`,
`"  C"`, `"\tD"`. -/
def exLines : List (List Char) :=
  ["\tA".toList, "\t\tB".toList, "  C".toList, "\tD".toList]

/-- Space-indented lines reaching open levels `[0, 2, 4]` and then a line of
level `3` (the level-stack example of the specification). -/
def c6Lines : List (List Char) :=
  ["a".toList, "  b".toList, "    c".toList, "   d".toList]

/-- A two-line document with one indented block. -/
def c7Lines : List (List Char) := ["a".toList, "\tb".toList]

def c7Toks : List Tok :=
  [Tok.content "a", Tok.INDENT, Tok.content "b", Tok.DEDENT]

/-- A source whose range `A` has an empty span list and whose constraint
selects `A`: verification indexes `rg.spans[0]` on an empty list. -/
def c4Lines : List (List Char) :=
  ["char A".toList, "\tclass x".toList,
   "constraint c".toList, "\tbefore A".toList, "\tafter A".toList]

/-- A source whose character `A` is ambient in a document with no time point
at all: the ambient bound computation in `Range.link` takes the minimum of
an empty set (Python `min(set())`). -/
def c4AmbLines : List (List Char) :=
  ["char A".toList, "\tambient".toList]

/-- A source whose begin-word carries a malformed numeral: parsing calls
Python float on the string `x`. -/
def c4NumLines : List (List Char) :=
  ["char A".toList, "\tbegin x".toList]

/-- Range `A` with span `[0, 10]`. -/
def rangeA : TML.Range :=
  { name := "A", dispname := none, classes := [], spans := [⟨0, "begin", 10, "end"⟩],
    idx := none, ambient := false, hanging_events := [], gender := none, parents := none }

/-- Range `B` with span `[10, 20]`. -/
def rangeB : TML.Range :=
  { name := "B", dispname := none, classes := [], spans := [⟨10, "begin", 20, "end"⟩],
    idx := none, ambient := false, hanging_events := [], gender := none, parents := none }

def tmlAB : Timeline :=
  { ranges := [rangeA, rangeB], events := [], constraints := [], groups := [],
    universal_evs := none }

/-- `before=[A,0,"end"], after=[B,0,"start"]`, offset 0, non-strict. -/
def conEx : Constraint :=
  { name := some "c", before := some [SelTok.s "A", SelTok.s "0", SelTok.s "end"],
    after := some [SelTok.s "B", SelTok.s "0", SelTok.s "start"],
    offset := 0, strict := false }

/-- The same constraint with `strict` set. -/
def conExStrict : Constraint := { conEx with strict := true }

/-- A constraint whose selectors resolve to nothing. -/
def conU : Constraint :=
  { name := some "u", before := some [SelTok.s "nope"],
    after := some [SelTok.s "nope"], offset := 0, strict := false }

/-- A character (span-less; spans play no role in linking here). -/
def mkCharR (nm : String) (ps : List String) : TML.Range :=
  { name := nm, dispname := none, classes := [], spans := [], idx := none,
    ambient := false, hanging_events := [], gender := none,
    parents := some (ps.map NameOrRef.nm) }

/-- An event anchored to `Mom` by name. -/
def evFromMom : TML.Event :=
  { desc := none, time := some 5, from_rg := [NameOrRef.nm "Mom"],
    with_rg := [], classes := [], name := none, idx := none }

/-- A document on which every name reference resolves: `Kid` has parent
`Mom`, one event is anchored to `Mom`. -/
def tmlC : Timeline :=
  { ranges := [mkCharR "Mom" [], mkCharR "Kid" ["Mom"]], events := [evFromMom],
    constraints := [], groups := [], universal_evs := none }

/-- The result of linking `tmlC` (total projection; `linkC_eval` below shows
the link indeed succeeds with this value). -/
def tmlCRes : Timeline × List Diag :=
  ((Timeline.link tmlC).toOption).getD (Timeline.empty, [])

/-- A document whose single character has two resolved parents. -/
def tmlP : Timeline :=
  { ranges := [mkCharR "Mom" [], mkCharR "Dad" [], mkCharR "Kid" ["Mom", "Dad"]],
    events := [], constraints := [], groups := [], universal_evs := none }

def g8a : Group := { name := some "G", evs := [["e1"]] }

def g8b : Group := { name := some "G", evs := [["e2"]] }

end Examples

open OSP TML Examples

/-- Helper: inserting under a key makes the new value the first entry found
under that key (dict overwrite: later insertion wins). -/
theorem find_putByKey {α β : Type} [DecidableEq β] (key : α → β) (a : α) :
    ∀ l : List α, (putByKey key a l).find? (fun x => key x = key a) = some a := by
  intro l
  induction l with
  | nil => simp [putByKey, List.find?]
  | cons x xs ih =>
    by_cases h : key x = key a
    · simp [putByKey, h, List.find?]
    · simp [putByKey, h, List.find?, ih]

/-- C10: when a `Range`/`Character` block ends (closing `DEDENT` or end of
input) while a span opened by a begin-word is still pending, the pending span
is dropped without a trace: the finished range is built from the completed
spans only (sorted by start), the accumulated diagnostics are returned
unchanged (at end of input, plus the generic EOF warning that is emitted
whether or not a span is pending), and the outcome is identical to that of
the same state with no pending span. -/
theorem range_pending_span_dropped (isChar : Bool) (inst : TML.Range) (q : ℚ) (w : String)
    (ds : List Diag) (rest : List Tok) :
    rangeAux isChar ⟨inst, some (q, w), ds⟩ (Tok.DEDENT :: rest)
        = .ok (finishRange inst, ds, rest) ∧
    rangeAux isChar ⟨inst, some (q, w), ds⟩ (Tok.DEDENT :: rest)
        = rangeAux isChar ⟨inst, none, ds⟩ (Tok.DEDENT :: rest) ∧
    rangeAux isChar ⟨inst, some (q, w), ds⟩ []
        = .ok (finishRange inst, ds ++ [Diag.eofBlock "range"], []) ∧
    rangeAux isChar ⟨inst, some (q, w), ds⟩ []
        = rangeAux isChar ⟨inst, none, ds⟩ [] ∧
    (finishRange inst).spans = inst.spans.insertionSort spanLe :=
  ⟨rfl, rfl, rfl, rfl, rfl⟩

/-- C8 (amended): `add` overwrites on duplicate range names and on duplicate
group names alike (the later insertion is what a subsequent lookup finds),
but only the range case emits a diagnostic; a group overwrite is silent. -/
theorem add_overwrite_behavior (tml : Timeline) (rg : TML.Range) (g : Group) :
    ((tml.add (.rng rg)).2
        = if tml.ranges.any (fun x => x.name = rg.name)
          then [Diag.rangeOverwrite rg.name] else []) ∧
    ((tml.add (.rng rg)).1.ranges.find? (fun x => x.name = rg.name) = some rg) ∧
    ((tml.add (.grp g)).2 = ([] : List Diag)) ∧
    ((tml.add (.grp g)).1.groups.find? (fun x => x.name = g.name) = some g) :=
  ⟨rfl, find_putByKey (fun x => x.name) rg tml.ranges, rfl,
    find_putByKey (fun x => x.name) g tml.groups⟩

/-- C8 counterexample: registering a second `Group` under an existing group
name overwrites the earlier entry but emits no diagnostic at all, refuting
the claim that overwritten group names are reported like range names. -/
theorem group_overwrite_silent_cex :
    ((Timeline.empty.add (.grp g8a)).1.add (.grp g8b)).2 = [] ∧
    ((Timeline.empty.add (.grp g8a)).1.add (.grp g8b)).1.groups = [g8b] ∧
    g8a.name = g8b.name ∧ g8a ≠ g8b := by
  refine ⟨rfl, rfl, rfl, by decide⟩

/-- Helper: while the nesting counter is at least 1, `read_block` passes a
balanced token sequence through to the callback without stopping inside it. -/
theorem readBlock_balanced {b : List Tok} (hb : OSP.Bal b) :
    ∀ (lev : Int), 1 ≤ lev → ∀ rest : List Tok,
      OSP.readBlock lev (b ++ rest)
        = (b ++ (OSP.readBlock lev rest).1, (OSP.readBlock lev rest).2) := by
  induction hb with
  | nil => intro lev _ rest; simp
  | content s ts _ ih =>
    intro lev hlev rest
    simp only [List.cons_append, OSP.readBlock, List.append_eq]
    rw [ih lev hlev rest]
  | nest b ts hbb hts ihb iht =>
    intro lev hlev rest
    have hsh : (Tok.INDENT :: b ++ Tok.DEDENT :: ts) ++ rest
        = Tok.INDENT :: (b ++ Tok.DEDENT :: (ts ++ rest)) := by simp
    rw [hsh]
    simp only [OSP.readBlock, List.append_eq]
    rw [ihb (lev + 1) (by omega) (Tok.DEDENT :: (ts ++ rest))]
    have h0 : ¬(lev + 1 - 1 = 0) := by omega
    simp only [OSP.readBlock, h0, if_false]
    have h1 : lev + 1 - 1 = lev := by omega
    rw [h1, iht lev hlev rest]
    simp

/-- C9 (amended): `read_block` is invoked with the stream positioned just
before the opening `INDENT` of the block to skip (its call sites in
`Timeline.from_tokens` sit right after the header content token); it then
consumes the opening `INDENT`, the balanced body, and the matching `DEDENT`,
leaves the stream positioned just past that `DEDENT`, and invokes the
callback on every consumed token except the matching `DEDENT` itself
(`break` fires before the callback). -/
theorem read_block_consumes_block (b rest : List Tok) (hb : OSP.Bal b) :
    OSP.readBlock 0 (Tok.INDENT :: b ++ Tok.DEDENT :: rest) = (Tok.INDENT :: b, rest) := by
  have hsh : Tok.INDENT :: b ++ Tok.DEDENT :: rest
      = Tok.INDENT :: (b ++ Tok.DEDENT :: rest) := by simp
  rw [hsh]
  simp only [OSP.readBlock, zero_add]
  rw [readBlock_balanced hb 1 (by omega) (Tok.DEDENT :: rest)]
  simp [OSP.readBlock]

/-- Witness for C9 (amended) at a one-line block followed by a sibling
token. -/
theorem read_block_consumes_block_witness :
    OSP.readBlock 0 [Tok.INDENT, Tok.content "x", Tok.DEDENT, Tok.content "y"]
      = ([Tok.INDENT, Tok.content "x"], [Tok.content "y"]) :=
  read_block_consumes_block [Tok.content "x"] [Tok.content "y"]
    (OSP.Bal.content "x" [] OSP.Bal.nil)

/-- C9 counterexample: take the stream `[INDENT, DEDENT, content "b"]` (an
empty block followed by a sibling token) and position it right after the
opening `INDENT`, as the claim prescribes: the suffix `[DEDENT, content "b"]`.
The claim predicts that `read_block` stops just past the matching `DEDENT`,
leaving `[content "b"]`.  Instead the counter goes negative, the matching
`DEDENT` is passed to the callback, and the whole remaining stream is
consumed: the remainder is `[]`, not `[content "b"]`. -/
theorem read_block_position_cex :
    (OSP.readBlock 0 [Tok.DEDENT, Tok.content "b"]).2 = [] ∧
    (OSP.readBlock 0 [Tok.DEDENT, Tok.content "b"]).1
      = [Tok.DEDENT, Tok.content "b"] ∧
    (OSP.readBlock 0 [Tok.DEDENT, Tok.content "b"]).2 ≠ [Tok.content "b"] := by
  refine ⟨rfl, rfl, by decide⟩

/-- Helper: the latch update in closed form (an empty run contains no
space, so the two cases of the source collapse). -/
theorem latchAfter_eq (ot : Bool) (span : List Char) :
    OSP.latchAfter ot span = (ot && !(span.contains ' ')) := by
  unfold OSP.latchAfter
  by_cases h : span = []
  · subst h; simp
  · simp [h]

/-- Helper: the level computation in closed form (an empty run and a tabless
run both agree with the spaces-plus-weighted-tabs formula, because the tab
count is then zero). -/
theorem levelOf_eq (tabs : Nat) (ot : Bool) (span : List Char) :
    OSP.levelOf tabs ot span
      = span.count ' ' + span.count '\t' * (if ot then 1 else tabs) := by
  unfold OSP.levelOf
  by_cases h : span = []
  · subst h; simp
  · by_cases ht : span.contains '\t'
    · simp only [h, ht, if_false, if_true]
    · have hz : span.count '\t' = 0 := by
        rw [List.count_eq_zero]
        intro hmem
        rw [List.contains_iff_exists_mem_beq] at ht
        exact ht ⟨_, hmem, by simp⟩
      simp [h, ht, hz]

/-- Helper: the successive levels computed by the tokenizer, in closed form
over an arbitrary initial latch value. -/
theorem levels_formula (tabs : Nat) :
    ∀ (lines : List (List Char)) (ot : Bool),
      OSP.levels tabs ot lines = (List.range lines.length).map (fun i =>
        (OSP.lws (lines.getD i [])).count ' ' +
          (OSP.lws (lines.getD i [])).count '\t' *
            (if ot && (lines.take (i + 1)).all (fun l => !((OSP.lws l).contains ' '))
             then 1 else tabs))
  | [], _ => by simp [OSP.levels]
  | l :: ls, ot => by
    have ih := levels_formula tabs ls (OSP.latchAfter ot (OSP.lws l))
    simp only [OSP.levels, ih, List.length_cons, List.range_succ_eq_map,
      List.map_cons, List.map_map]
    congr 1
    · rw [levelOf_eq, latchAfter_eq]
      simp
    · apply List.map_congr_left
      intro i _
      simp only [Function.comp_apply, List.getD_cons_succ, latchAfter_eq]
      have htake : (l :: ls).take (i + 1 + 1) = l :: ls.take (i + 1) := rfl
      rw [htake]
      simp only [List.all_cons, ← Bool.and_assoc]

/-- C2: for every tokenized line sequence and configured tab width, the
level of line `i` equals its leading space count plus its leading tab count
times `t`, where `t = 1` while every indentation run up to and including
line `i` contains only tabs and `t` is the configured width from the first
space-containing run onward; in particular lines `"\tA"`, `"\t\tB"`,
`"  C"`, `"\tD"` at width 4 get levels `1, 2, 2, 4`. -/
theorem tokenizer_level_formula :
    (∀ (tabs : Nat) (lines : List (List Char)),
      OSP.levels tabs true lines
        = (List.range lines.length).map (OSP.claimedLevel tabs lines)) ∧
    OSP.levels 4 true Examples.exLines = [1, 2, 2, 4] := by
  constructor
  · intro tabs lines
    rw [levels_formula]
    apply List.map_congr_left
    intro i _
    simp [OSP.claimedLevel]
  · decide

/-- Helper: popping the levels above `lev` can never empty a stack whose
bottom element is `0`, because `0` is never strictly greater than a level. -/
theorem dropWhile_bottom_zero (lev : Nat) :
    ∀ s : List Nat, (s ++ [0]).dropWhile (fun x => decide (x > lev)) ≠ [] := by
  intro s
  induction s with
  | nil => simp [List.dropWhile]
  | cons a s ih =>
    by_cases h : a > lev
    · simpa [List.dropWhile, h] using ih
    · simp [List.dropWhile, h]

/-- Helper: the first level surviving the popping loop is at most `lev`. -/
theorem dropWhile_head_le (lev : Nat) :
    ∀ (l : List Nat) (t : Nat) (r : List Nat),
      l.dropWhile (fun x => decide (x > lev)) = t :: r → t ≤ lev := by
  intro l
  induction l with
  | nil => intro t r h; simp [List.dropWhile] at h
  | cons a l ih =>
    intro t r h
    by_cases ha : a > lev
    · rw [List.dropWhile_cons_of_pos (by simpa using ha)] at h
      exact ih t r h
    · rw [List.dropWhile_cons_of_neg (by simpa using ha)] at h
      cases h
      omega

/-- C6: the tokenizer step on a new level fails (and fails with the
unmatched-indentation error, carrying the popped stack) exactly when the
level is strictly below the stack top and, after popping every strictly
greater level, differs from the surviving top; no other failure is possible
on a stack with base `0`.  The stack `[0, 2, 4]` of the specification is
`[4, 2, 0]` in the top-first representation used here, and level `3` indeed
fails both as a single step and within a full `tokenize` run. -/
theorem tokenize_unmatched_level_iff :
    (∀ (s : List Nat) (lev : Nat),
      (∃ e, OSP.levStep (s ++ [0]) lev = .error e) ↔
        (lev < (s ++ [0]).headD 0 ∧
          ((s ++ [0]).dropWhile (fun x => decide (x > lev))).headD 0 ≠ lev)) ∧
    OSP.levStep [4, 2, 0] 3 = .error (.unmatched 3 [2, 0]) ∧
    OSP.tokenize 4 Examples.c6Lines = .error (.unmatched 3 [2, 0]) := by
  refine ⟨?_, rfl, rfl⟩
  intro s lev
  cases s with
  | nil =>
    simp only [List.nil_append, List.headD_cons]
    constructor
    · rintro ⟨e, he⟩
      exfalso
      by_cases h : lev > 0
      · simp [OSP.levStep, h] at he
      · have h0 : lev = 0 := by omega
        simp [OSP.levStep, h0] at he
    · rintro ⟨h1, _⟩
      omega
  | cons a s' =>
    have hpop := dropWhile_bottom_zero lev (a :: s')
    simp only [List.cons_append] at hpop ⊢
    by_cases hgt : lev > a
    · simp only [List.headD_cons]
      constructor
      · rintro ⟨e, he⟩
        simp [OSP.levStep, hgt] at he
      · rintro ⟨h1, _⟩
        omega
    · by_cases hlt : lev < a
      · obtain ⟨t, r, hd⟩ : ∃ t r, (a :: (s' ++ [0])).dropWhile (fun x => decide (x > lev)) = t :: r := by
          cases hcase : (a :: (s' ++ [0])).dropWhile (fun x => decide (x > lev)) with
          | nil => exact absurd hcase hpop
          | cons t r => exact ⟨t, r, rfl⟩
        have hle : t ≤ lev := dropWhile_head_le lev _ t r hd
        simp only [List.headD_cons, hd]
        constructor
        · rintro ⟨e, he⟩
          simp only [OSP.levStep, hgt, hlt, if_true, if_false, hd] at he
          by_cases htl : t < lev
          · exact ⟨hlt, by omega⟩
          · simp [htl] at he
        · rintro ⟨_, hne⟩
          have htl : t < lev := by omega
          refine ⟨.unmatched lev (t :: r), ?_⟩
          simp [OSP.levStep, hgt, hlt, hd, htl]
      · have ha : lev = a := by omega
        simp only [List.headD_cons]
        constructor
        · rintro ⟨e, he⟩
          simp [OSP.levStep, ha] at he
        · rintro ⟨h1, _⟩
          omega

/-- Helper: popping a prefix never lengthens a list. -/
theorem dropWhile_length_le {α : Type} (p : α → Bool) :
    ∀ l : List α, (l.dropWhile p).length ≤ l.length := by
  intro l
  induction l with
  | nil => simp
  | cons a l ih =>
    by_cases h : p a
    · rw [List.dropWhile_cons_of_pos h]
      exact le_trans ih (by simp)
    · rw [List.dropWhile_cons_of_neg h]

/-- Helper: one stack adjustment preserves the balance invariant
`#INDENT + old stack size = #DEDENT + new stack size`, and never empties the
stack. -/
theorem levStep_balance (stack : List Nat) (lev : Nat) (ts : List Tok) (stack' : List Nat)
    (h : OSP.levStep stack lev = .ok (ts, stack')) :
    ts.count Tok.INDENT + stack.length = ts.count Tok.DEDENT + stack'.length ∧ stack' ≠ [] := by
  unfold OSP.levStep at h
  match stack with
  | [] => simp at h
  | top :: rest =>
    by_cases hgt : lev > top
    · simp only [hgt, if_true] at h
      cases h
      constructor
      · simp [List.count_cons, List.count_nil]
        omega
      · simp
    · by_cases hlt : lev < top
      · simp only [hgt, hlt, if_true, if_false] at h
        cases hcase : (top :: rest).dropWhile (fun x => decide (x > lev)) with
        | nil => rw [hcase] at h; simp at h
        | cons t r =>
          rw [hcase] at h
          by_cases htl : t < lev
          · simp [htl] at h
          · simp only [htl, if_false] at h
            cases h
            have hlen : (t :: r).length ≤ (top :: rest).length := by
              rw [← hcase]; exact dropWhile_length_le _ _
            constructor
            · have hI : (List.replicate ((top :: rest).length - (t :: r).length)
                  Tok.DEDENT).count Tok.INDENT = 0 := by
                rw [List.count_eq_zero]
                simp [List.mem_replicate]
              have hD : (List.replicate ((top :: rest).length - (t :: r).length)
                  Tok.DEDENT).count Tok.DEDENT
                  = (top :: rest).length - (t :: r).length :=
                List.count_replicate_self _ _
              rw [hI, hD]
              simp only [List.length_cons] at hlen ⊢
              omega
            · simp
      · simp only [hgt, hlt, if_false] at h
        cases h
        simp

/-- Helper: one full line iteration preserves the balance invariant. -/
theorem lineStep_balance (tabs : Nat) (st : OSP.TState) (line : List Char)
    (ts : List Tok) (st' : OSP.TState)
    (h : OSP.lineStep tabs st line = .ok (ts, st')) :
    ts.count Tok.INDENT + st.stack.length = ts.count Tok.DEDENT + st'.stack.length ∧
      st'.stack ≠ [] := by
  unfold OSP.lineStep at h
  dsimp only at h
  cases hstep : OSP.levStep st.stack
      (OSP.levelOf tabs (OSP.latchAfter st.onlyTabbed (OSP.lws line)) (OSP.lws line)) with
  | error e => rw [hstep] at h; simp at h
  | ok p =>
    obtain ⟨ts1, stack1⟩ := p
    rw [hstep] at h
    dsimp only at h
    simp only [Except.ok.injEq, Prod.mk.injEq] at h
    obtain ⟨h1, h2⟩ := h
    subst h1
    subst h2
    obtain ⟨hbal, hne⟩ := levStep_balance _ _ _ _ hstep
    constructor
    · simp only [List.count_append]
      have hc1 : [Tok.content (OSP.stripRest line)].count Tok.INDENT = 0 := by
        rw [List.count_eq_zero]; simp
      have hc2 : [Tok.content (OSP.stripRest line)].count Tok.DEDENT = 0 := by
        rw [List.count_eq_zero]; simp
      rw [hc1, hc2]
      omega
    · exact hne

/-- Helper: the whole line loop preserves the balance invariant. -/
theorem tokenizeAux_balance (tabs : Nat) :
    ∀ (lines : List (List Char)) (st : OSP.TState) (ts : List Tok) (st' : OSP.TState),
      OSP.tokenizeAux tabs st lines = .ok (ts, st') → st.stack ≠ [] →
      ts.count Tok.INDENT + st.stack.length = ts.count Tok.DEDENT + st'.stack.length ∧
        st'.stack ≠ [] := by
  intro lines
  induction lines with
  | nil =>
    intro st ts st' h hne
    simp only [OSP.tokenizeAux] at h
    cases h
    exact ⟨by simp, hne⟩
  | cons l ls ih =>
    intro st ts st' h hne
    simp only [OSP.tokenizeAux] at h
    cases hline : OSP.lineStep tabs st l with
    | error e => rw [hline] at h; simp at h
    | ok p =>
      obtain ⟨ts1, st1⟩ := p
      rw [hline] at h
      dsimp only at h
      cases haux : OSP.tokenizeAux tabs st1 ls with
      | error e => rw [haux] at h; simp at h
      | ok q =>
        obtain ⟨ts2, st2⟩ := q
        rw [haux] at h
        dsimp only at h
        simp only [Except.ok.injEq, Prod.mk.injEq] at h
        obtain ⟨h1, h2⟩ := h
        subst h1
        subst h2
        obtain ⟨hb1, hne1⟩ := lineStep_balance tabs st l ts1 st1 hline
        obtain ⟨hb2, hne2⟩ := ih st1 ts2 st2 haux hne1
        refine ⟨?_, hne2⟩
        simp only [List.count_append]
        omega

/-- C7: over every complete, non-erroring run, `tokenize` emits exactly as
many `DEDENT` tokens as `INDENT` tokens: the end-of-input loop emits one
`DEDENT` per stack level above the base, which is exactly the surplus the
line loop accumulated. -/
theorem tokenize_indent_dedent_balance (tabs : Nat) (lines : List (List Char)) (ts : List Tok)
    (h : OSP.tokenize tabs lines = .ok ts) :
    ts.count Tok.INDENT = ts.count Tok.DEDENT := by
  unfold OSP.tokenize at h
  cases haux : OSP.tokenizeAux tabs ⟨[0], true⟩ lines with
  | error e => rw [haux] at h; simp at h
  | ok p =>
    obtain ⟨ts0, st0⟩ := p
    rw [haux] at h
    simp only [Except.ok.injEq] at h
    subst h
    obtain ⟨hbal, hne⟩ := tokenizeAux_balance tabs lines ⟨[0], true⟩ ts0 st0 haux (by simp)
    have hI : (List.replicate (st0.stack.length - 1) Tok.DEDENT).count Tok.INDENT = 0 := by
      rw [List.count_eq_zero]
      simp [List.mem_replicate]
    have hD : (List.replicate (st0.stack.length - 1) Tok.DEDENT).count Tok.DEDENT
        = st0.stack.length - 1 := List.count_replicate_self _ _
    have hlen : 1 ≤ st0.stack.length := by
      cases hstk : st0.stack with
      | nil => exact absurd hstk hne
      | cons a r => simp
    simp only [List.count_append, hI, hD]
    simp only [List.length_cons, List.length_nil] at hbal
    omega

/-- Witness for C7 at a two-line input with one block. -/
theorem tokenize_indent_dedent_balance_witness :
    OSP.tokenize 4 Examples.c7Lines = .ok Examples.c7Toks ∧
    Examples.c7Toks.count Tok.INDENT = Examples.c7Toks.count Tok.DEDENT :=
  ⟨rfl, tokenize_indent_dedent_balance 4 Examples.c7Lines Examples.c7Toks rfl⟩

/-- C1: for a constraint both of whose selectors resolve, with `max(B)` and
`min(A)` defined (non-empty numeric time sets), verification returns exactly
the comparison `max(B) < min(A) + offset` when `strict` and
`max(B) <= min(A) + offset` otherwise, plus a violation diagnostic when the
comparison fails. -/
theorem constraint_verify_semantics (fuel : Nat) (c : Constraint) (tml : Timeline)
    (bs afs : List SelTok) (B A : GroupResult) (ds1 ds2 : List Diag) (mb ma : ℚ)
    (hb : c.before = some bs) (ha : c.after = some afs)
    (hsb : select tml fuel bs = .ok (some B, ds1))
    (hsa : select tml fuel afs = .ok (some A, ds2))
    (hmb : pySetMax B.times = .ok (some mb))
    (hma : pySetMin A.times = .ok (some ma)) :
    c.verify fuel tml = .ok
      ((if c.strict then decide (mb < ma + c.offset) else decide (mb ≤ ma + c.offset)),
        ds1 ++ ds2 ++
          (if (if c.strict then decide (mb < ma + c.offset) else decide (mb ≤ ma + c.offset))
           then [] else [Diag.constraintViolated c.name])) := by
  unfold Constraint.verify
  rw [hb]
  dsimp only
  rw [hsb]
  dsimp only
  rw [ha]
  dsimp only
  rw [hsa]
  dsimp only
  rw [hmb]
  dsimp only
  rw [hma]

/-- Witness for C1 at the example of the specification: Range `A` with span
`[0, 10]`, Range `B` with span `[10, 20]`, constraint
`before=[A,0,"end"], after=[B,0,"start"]`, offset 0: the non-strict
constraint passes (`10 <= 10`), the strict one fails (`10 < 10` is false). -/
theorem constraint_verify_semantics_witness :
    Examples.conEx.verify 1 Examples.tmlAB = .ok (true, []) ∧
    Examples.conExStrict.verify 1 Examples.tmlAB
      = .ok (false, [Diag.constraintViolated (some "c")]) := by
  have h1 := constraint_verify_semantics 1 Examples.conEx Examples.tmlAB
    [SelTok.s "A", SelTok.s "0", SelTok.s "end"]
    [SelTok.s "B", SelTok.s "0", SelTok.s "start"]
    ⟨some "A", [some 10]⟩ ⟨some "B", [some 10]⟩ [] [] 10 10
    rfl rfl rfl rfl rfl rfl
  have h2 := constraint_verify_semantics 1 Examples.conExStrict Examples.tmlAB
    [SelTok.s "A", SelTok.s "0", SelTok.s "end"]
    [SelTok.s "B", SelTok.s "0", SelTok.s "start"]
    ⟨some "A", [some 10]⟩ ⟨some "B", [some 10]⟩ [] [] 10 10
    rfl rfl rfl rfl rfl rfl
  constructor
  · rw [h1]
    norm_num [Examples.conEx]
  · rw [h2]
    norm_num [Examples.conExStrict, Examples.conEx]

/-- C4: the stated error policy (semantic conditions surface as warnings or
diagnostic data; parsing, linking and verification raise nothing beyond the
unmatched-indentation-level error of the tokenizer) is the evident intent of the
code, which warns and continues on every condition it guards -- but the code
breaks the policy on unguarded paths.  Three concrete documents, each halting
the pipeline with an uncaught exception: a constraint selector whose span
index lies outside the span list of the named range raises IndexError during
verification (the source evaluates `rg.spans[idx]` without a bounds check);
an ambient character in a document with no time point raises ValueError
during linking (`min(set())` inside `time_bounds`); and a malformed numeral
after a begin-word raises ValueError during parsing (Python `float`). -/
theorem pipeline_uncaught_errors_cex :
    run 4 Examples.c4Lines = .error (RunErr.py PyErr.indexError) ∧
    run 4 Examples.c4AmbLines = .error (RunErr.py PyErr.valueError) ∧
    run 4 Examples.c4NumLines = .error (RunErr.py PyErr.valueError) :=
  ⟨rfl, rfl, rfl⟩

/-- Helper: when `par.name` succeeds it agrees with its total rendering. -/
theorem parName_eq (all : List TML.Range) (par : NameOrRef) (pn : String)
    (h : parName all par = .ok pn) : parNameD all par = pn := by
  cases par with
  | nm s => simp [parName] at h
  | ref j =>
    unfold parName at h
    dsimp only at h
    cases hg : all.get? j with
    | none => rw [hg] at h; simp at h
    | some r =>
      rw [hg] at h
      simp only [Except.ok.injEq] at h
      unfold parNameD
      dsimp only
      rw [hg]
      simp [h]

/-- Helper: the per-parent synthesis loop in closed form. -/
theorem synthParentsGo_eq (all : List TML.Range) (nm : String) :
    ∀ (ps : List NameOrRef) (cs : List Constraint),
      synthParentsGo all nm ps = .ok cs →
      cs = ps.flatMap (fun par => synthForParent nm (parNameD all par)) := by
  intro ps
  induction ps with
  | nil =>
    intro cs h
    simp only [synthParentsGo, Except.ok.injEq] at h
    simp [← h]
  | cons par ps ih =>
    intro cs h
    unfold synthParentsGo at h
    cases hp : parName all par with
    | error e => rw [hp] at h; simp at h
    | ok pn =>
      rw [hp] at h
      dsimp only at h
      cases hgo : synthParentsGo all nm ps with
      | error e => rw [hgo] at h; simp at h
      | ok more =>
        rw [hgo] at h
        dsimp only at h
        simp only [Except.ok.injEq] at h
        subst h
        rw [List.flatMap_cons, parName_eq all par pn hp, ih more hgo]

/-- Helper: the whole synthesis step in closed form. -/
theorem synthConsGo_eq (all : List TML.Range) :
    ∀ (l : List TML.Range) (cs : List Constraint),
      synthConsGo all l = .ok cs →
      cs = l.flatMap (fun rg =>
        (rg.parents.getD []).flatMap (fun par =>
          synthForParent rg.name (parNameD all par))) := by
  intro l
  induction l with
  | nil =>
    intro cs h
    simp only [synthConsGo, Except.ok.injEq] at h
    simp [← h]
  | cons rg rest ih =>
    intro cs h
    unfold synthConsGo at h
    cases hpar : rg.parents with
    | none =>
      rw [hpar] at h
      dsimp only at h
      rw [List.flatMap_cons, hpar]
      simp only [Option.getD_none, List.flatMap_nil, List.nil_append]
      exact ih cs h
    | some ps =>
      rw [hpar] at h
      dsimp only at h
      cases hgo : synthParentsGo all rg.name ps with
      | error e => rw [hgo] at h; simp at h
      | ok here =>
        rw [hgo] at h
        dsimp only at h
        cases hrest : synthConsGo all rest with
        | error e => rw [hrest] at h; simp at h
        | ok more =>
          rw [hrest] at h
          dsimp only at h
          simp only [Except.ok.injEq] at h
          subst h
          rw [List.flatMap_cons, hpar]
          simp only [Option.getD_some]
          rw [synthParentsGo_eq all rg.name ps here hgo, ih more hrest]

/-- C5 (amended): a successful link appends to the constraint bag exactly the
synthesized parent constraints: two per (character, resolved parent) pair,
in range order -- the first named `<child>_born_after_<parent>` with
before-selector `[parent]` and after-selector `[child]`, the second named
`<child>_born_predeath_<parent>` with before-selector `[child]` and
after-selector `[parent, -1, "end"]`, both non-strict with offset 0. -/
theorem link_parent_constraints (tml tml1 : Timeline) (d : List Diag)
    (h : tml.link = .ok (tml1, d)) :
    ∃ s, synthCons tml1.ranges = .ok s ∧
      tml1.constraints = tml.constraints ++ s ∧
      s = tml1.ranges.flatMap (fun rg =>
        (rg.parents.getD []).flatMap (fun par =>
          [ Constraint.mk
              (some (rg.name ++ "_born_after_" ++ parNameD tml1.ranges par))
              (some [SelTok.s (parNameD tml1.ranges par)])
              (some [SelTok.s rg.name]) 0 false,
            Constraint.mk
              (some (rg.name ++ "_born_predeath_" ++ parNameD tml1.ranges par))
              (some [SelTok.s rg.name])
              (some [SelTok.s (parNameD tml1.ranges par), SelTok.i (-1),
                SelTok.s "end"]) 0 false ])) := by
  unfold Timeline.link at h
  cases hr : linkRangesGo tml [] [] tml.ranges with
  | error e => rw [hr] at h; simp at h
  | ok p =>
    obtain ⟨ranges1, d1⟩ := p
    rw [hr] at h
    dsimp only at h
    obtain ⟨⟨evs2, ranges2, d3⟩, hE⟩ : ∃ t, linkEventsGo ranges1 [] []
        ((tml.events.filter (fun ev => ev.time.isSome)).insertionSort evTimeLe) = t :=
      ⟨_, rfl⟩
    rw [hE] at h
    dsimp only at h
    obtain ⟨⟨evs3, uc⟩, hU⟩ : ∃ t, assignUniversalIdx evs2 = t := ⟨_, rfl⟩
    rw [hU] at h
    dsimp only at h
    cases hs : synthCons ranges2 with
    | error e => rw [hs] at h; simp at h
    | ok newCons =>
      rw [hs] at h
      simp only [Except.ok.injEq, Prod.mk.injEq] at h
      obtain ⟨h1, _⟩ := h
      subst h1
      refine ⟨newCons, hs, rfl, ?_⟩
      exact synthConsGo_eq ranges2 ranges2 newCons hs

/-- Helper: `tmlC` links successfully, to the value `tmlCRes` (computed by
the same pipeline). -/
theorem linkC_eval : Timeline.link Examples.tmlC = .ok Examples.tmlCRes := rfl

/-- Witness for C5 (amended) on the document `tmlC`, whose single character
`Kid` has the one resolved parent `Mom`: exactly the two constraints
`Kid_born_after_Mom` and `Kid_born_predeath_Mom`, of the claimed shapes, are
appended. -/
theorem link_parent_constraints_witness :
    ∃ s, synthCons Examples.tmlCRes.1.ranges = .ok s ∧
      Examples.tmlCRes.1.constraints = Examples.tmlC.constraints ++ s ∧
      s = Examples.tmlCRes.1.ranges.flatMap (fun rg =>
        (rg.parents.getD []).flatMap (fun par =>
          [ Constraint.mk
              (some (rg.name ++ "_born_after_" ++
                parNameD Examples.tmlCRes.1.ranges par))
              (some [SelTok.s (parNameD Examples.tmlCRes.1.ranges par)])
              (some [SelTok.s rg.name]) 0 false,
            Constraint.mk
              (some (rg.name ++ "_born_predeath_" ++
                parNameD Examples.tmlCRes.1.ranges par))
              (some [SelTok.s rg.name])
              (some [SelTok.s (parNameD Examples.tmlCRes.1.ranges par),
                SelTok.i (-1), SelTok.s "end"]) 0 false ])) :=
  link_parent_constraints Examples.tmlC Examples.tmlCRes.1 Examples.tmlCRes.2 linkC_eval

/-- C5 counterexample: in `tmlP` exactly one character has resolved parents
(two of them: post-link parent counts per range are `[0, 0, 2]`), yet
linking synthesizes four constraints, not "exactly two": the count is two
per (character, parent) pair. -/
theorem parent_constraints_count_cex :
    (Timeline.link Examples.tmlP).map (fun p => p.1.constraints.length) = .ok 4 ∧
    Examples.tmlP.constraints.length = 0 ∧
    (Timeline.link Examples.tmlP).map
        (fun p => p.1.ranges.map (fun rg => (rg.parents.getD []).length)) =
      .ok [0, 0, 2] :=
  ⟨rfl, rfl, rfl⟩

/-- C3 counterexample: on `tmlC` every name reference resolves, and the
first link resolves them (parents `[some [], some [ref 0]]`, event from-set
`[ref 0]`).  Running the link phase a second time does not leave the
resolved reference sets unchanged: re-resolution treats the object
references as unknown dictionary keys and empties both sets. -/
theorem link_not_idempotent_cex :
    (Timeline.link Examples.tmlC).map
        (fun p => p.1.ranges.map (fun rg => rg.parents))
      = .ok [some [], some [NameOrRef.ref 0]] ∧
    ((Timeline.link Examples.tmlC).bind (fun p => Timeline.link p.1)).map
        (fun p => p.1.ranges.map (fun rg => rg.parents))
      = .ok [some [], some []] ∧
    (Timeline.link Examples.tmlC).map
        (fun p => p.1.events.map (fun ev => ev.from_rg))
      = .ok [[NameOrRef.ref 0]] ∧
    ((Timeline.link Examples.tmlC).bind (fun p => Timeline.link p.1)).map
        (fun p => p.1.events.map (fun ev => ev.from_rg))
      = .ok [[]] :=
  ⟨rfl, rfl, rfl, rfl⟩

/-- Helper: resolution only ever produces object references. -/
theorem resolveSet_refs (ranges : List TML.Range) (l : List NameOrRef) :
    ∀ x ∈ resolveSet ranges l, ∃ j, x = NameOrRef.ref j := by
  intro x hx
  unfold resolveSet at hx
  rw [List.mem_dedup, List.mem_filterMap] at hx
  obtain ⟨a, _, ha⟩ := hx
  cases a with
  | nm s =>
    dsimp only at ha
    cases hf : ranges.findIdx? (fun r => r.name = s) with
    | none => rw [hf] at ha; simp at ha
    | some j =>
      rw [hf] at ha
      simp only [Option.map_some'] at ha
      exact ⟨j, by rw [← Option.some_inj.mp ha]⟩
  | ref j => simp at ha

/-- Helper: a set that already consists of object references resolves to the
empty set, because an object is never a string dictionary key. -/
theorem resolveSet_of_refs (ranges : List TML.Range) (l : List NameOrRef)
    (h : ∀ x ∈ l, ∃ j, x = NameOrRef.ref j) : resolveSet ranges l = [] := by
  unfold resolveSet
  have hfm : (l.filterMap fun x =>
      match x with
      | NameOrRef.nm s => (ranges.findIdx? (fun r => r.name = s)).map NameOrRef.ref
      | NameOrRef.ref _ => none) = [] := by
    rw [List.filterMap_eq_nil_iff]
    intro a ha
    obtain ⟨j, hj⟩ := h a ha
    subst hj
    rfl
  rw [hfm]
  rfl

/-- Helper: `min`/`max` of a non-empty set of defined times succeed. -/
theorem pySet_ok (l : List (Option ℚ)) (hne : l ≠ [])
    (hsome : ∀ x ∈ l, x.isSome = true) :
    (∃ q, pySetMin l = .ok (some q)) ∧ (∃ q, pySetMax l = .ok (some q)) := by
  have hdne : l.dedup ≠ [] := fun hd => hne ((List.dedup_eq_nil l).mp hd)
  have hdsome : ∀ x ∈ l.dedup, x.isSome = true := fun x hx =>
    hsome x (List.mem_dedup.mp hx)
  constructor
  · unfold pySetMin
    cases hd : l.dedup with
    | nil => exact absurd hd hdne
    | cons x xs =>
      have hxs : x.isSome = true := hdsome x (by rw [hd]; exact List.mem_cons_self _ _)
      obtain ⟨qx, hqx⟩ := Option.isSome_iff_exists.mp hxs
      cases xs with
      | nil => exact ⟨qx, by rw [hqx]⟩
      | cons y ys =>
        have hall : ((x :: y :: ys).all fun z => z.isSome) = true := by
          rw [List.all_eq_true]
          intro z hz
          exact hdsome z (by rw [hd]; exact hz)
        subst hqx
        dsimp only
        rw [if_pos hall]
        rw [show List.filterMap id (some qx :: y :: ys)
              = qx :: List.filterMap id (y :: ys) from by simp]
        exact ⟨_, rfl⟩
  · unfold pySetMax
    cases hd : l.dedup with
    | nil => exact absurd hd hdne
    | cons x xs =>
      have hxs : x.isSome = true := hdsome x (by rw [hd]; exact List.mem_cons_self _ _)
      obtain ⟨qx, hqx⟩ := Option.isSome_iff_exists.mp hxs
      cases xs with
      | nil => exact ⟨qx, by rw [hqx]⟩
      | cons y ys =>
        have hall : ((x :: y :: ys).all fun z => z.isSome) = true := by
          rw [List.all_eq_true]
          intro z hz
          exact hdsome z (by rw [hd]; exact hz)
        subst hqx
        dsimp only
        rw [if_pos hall]
        rw [show List.filterMap id (some qx :: y :: ys)
              = qx :: List.filterMap id (y :: ys) from by simp]
        exact ⟨_, rfl⟩

/-- Helper: every entry of the time-bounds set is a defined time when all
event times are defined (span bounds always are). -/
theorem timeBoundsList_some (tml : Timeline)
    (hev : ∀ ev ∈ tml.events, ev.time.isSome = true) :
    ∀ x ∈ timeBoundsList tml, x.isSome = true := by
  intro x hx
  unfold timeBoundsList at hx
  rw [List.mem_append] at hx
  rcases hx with hx | hx
  · rw [List.mem_flatMap] at hx
    obtain ⟨rg, _, hx⟩ := hx
    rw [List.mem_flatMap] at hx
    obtain ⟨sp, _, hx⟩ := hx
    simp only [List.mem_cons, List.not_mem_nil, or_false] at hx
    rcases hx with hx | hx <;> rw [hx] <;> rfl
  · rw [List.mem_map] at hx
    obtain ⟨ev, hmem, hx⟩ := hx
    rw [← hx]
    exact hev ev hmem

/-- Helper: the time-bounds set is non-empty as soon as some range has a
span. -/
theorem timeBoundsList_ne (tml : Timeline) (rg : TML.Range)
    (hrg : rg ∈ tml.ranges) (hsp : rg.spans ≠ []) :
    timeBoundsList tml ≠ [] := by
  cases hs : rg.spans with
  | nil => exact absurd hs hsp
  | cons sp rest =>
    apply List.ne_nil_of_mem (a := some sp.start)
    unfold timeBoundsList
    rw [List.mem_append]
    left
    rw [List.mem_flatMap]
    refine ⟨rg, hrg, ?_⟩
    rw [List.mem_flatMap]
    exact ⟨sp, by rw [hs]; exact List.mem_cons_self _ _, List.mem_cons_self _ _⟩

/-- Helper: `time_bounds` succeeds on a non-empty all-defined time set. -/
theorem time_bounds_ok (tml : Timeline)
    (hne : timeBoundsList tml ≠ [])
    (hsome : ∀ x ∈ timeBoundsList tml, x.isSome = true) :
    ∃ ab, tml.time_bounds = .ok ab := by
  obtain ⟨⟨qmin, hmin⟩, ⟨qmax, hmax⟩⟩ := pySet_ok _ hne hsome
  refine ⟨(qmin, qmax), ?_⟩
  unfold Timeline.time_bounds
  rw [hmin]
  dsimp only
  rw [hmax]

/-- Helper: a successful `Range.link` output satisfies the link invariants
(an ambient output has spans; output parents are object references), and an
input whose parents are already object references comes out with an empty
parents set. -/
theorem range_link_inv (tml : Timeline) (rg rg' : TML.Range) (ds : List Diag)
    (h : Range.link tml rg = .ok (rg', ds)) :
    (rg'.ambient = true → rg'.spans ≠ []) ∧
    (∀ ps, rg'.parents = some ps → ∀ x ∈ ps, ∃ j, x = NameOrRef.ref j) ∧
    ((∀ ps, rg.parents = some ps → ∀ x ∈ ps, ∃ j, x = NameOrRef.ref j) →
      ∀ ps, rg'.parents = some ps → ps = []) := by
  unfold Range.link at h
  by_cases hamb : rg.ambient
  · rw [if_pos hamb] at h
    cases htb : tml.time_bounds with
    | error e => rw [htb] at h; simp at h
    | ok mm =>
      obtain ⟨mnt, mxt⟩ := mm
      rw [htb] at h
      dsimp only at h
      cases hp : rg.parents with
      | none =>
        rw [hp] at h
        dsimp only at h
        simp only [Except.ok.injEq, Prod.mk.injEq] at h
        obtain ⟨h1, _⟩ := h
        subst h1
        refine ⟨fun _ => by simp, ?_, ?_⟩
        · intro ps hps
          simp [hp] at hps
        · intro _ ps hps
          simp [hp] at hps
      | some ps0 =>
        rw [hp] at h
        dsimp only at h
        simp only [Except.ok.injEq, Prod.mk.injEq] at h
        obtain ⟨h1, _⟩ := h
        subst h1
        refine ⟨fun _ => by simp, ?_, ?_⟩
        · intro ps hps
          simp only [Option.some_inj] at hps
          rw [← hps]
          exact resolveSet_refs tml.ranges ps0
        · intro hrefs ps hps
          simp only [Option.some_inj] at hps
          rw [← hps]
          exact resolveSet_of_refs tml.ranges ps0 (hrefs ps0 rfl)
  · rw [if_neg hamb] at h
    dsimp only at h
    cases hp : rg.parents with
    | none =>
      rw [hp] at h
      dsimp only at h
      simp only [Except.ok.injEq, Prod.mk.injEq] at h
      obtain ⟨h1, _⟩ := h
      subst h1
      refine ⟨fun hc => absurd hc hamb, ?_, ?_⟩
      · intro ps hps
        rw [hp] at hps
        cases hps
      · intro _ ps hps
        rw [hp] at hps
        cases hps
    | some ps0 =>
      rw [hp] at h
      dsimp only at h
      simp only [Except.ok.injEq, Prod.mk.injEq] at h
      obtain ⟨h1, _⟩ := h
      subst h1
      refine ⟨fun hc => absurd hc hamb, ?_, ?_⟩
      · intro ps hps
        simp only [Option.some_inj] at hps
        rw [← hps]
        exact resolveSet_refs tml.ranges ps0
      · intro hrefs ps hps
        simp only [Option.some_inj] at hps
        rw [← hps]
        exact resolveSet_of_refs tml.ranges ps0 (hrefs ps0 rfl)

/-- Helper: `Range.link` succeeds whenever the ambient branch has a
well-formed time set to draw on. -/
theorem range_link_ok (tml : Timeline) (rg : TML.Range)
    (hev : ∀ ev ∈ tml.events, ev.time.isSome = true)
    (hsp : rg.ambient = true → (rg.spans ≠ [] ∧ rg ∈ tml.ranges)) :
    ∃ out, Range.link tml rg = .ok out := by
  unfold Range.link
  by_cases hamb : rg.ambient
  · obtain ⟨hspans, hmem⟩ := hsp hamb
    obtain ⟨ab, hab⟩ := time_bounds_ok tml
      (timeBoundsList_ne tml rg hmem hspans) (timeBoundsList_some tml hev)
    rw [if_pos hamb, hab]
    obtain ⟨mnt, mxt⟩ := ab
    dsimp only
    cases hp : rg.parents with
    | none => exact ⟨_, rfl⟩
    | some ps0 => exact ⟨_, rfl⟩
  · rw [if_neg hamb]
    dsimp only
    cases hp : rg.parents with
    | none => exact ⟨_, rfl⟩
    | some ps0 => exact ⟨_, rfl⟩

/-- Helper: what the range-linking loop produces: idx fields enumerate the
positions after the prefix already done; every output range satisfies the
link invariants; and when every pending range's parents are already object
references, every output's parents set is empty. -/
theorem linkRangesGo_out (tml : Timeline) :
    ∀ (todo done : List TML.Range) (acc : List Diag) (out : List TML.Range) (d : List Diag),
      linkRangesGo tml done acc todo = .ok (out, d) →
      (out.map (fun rg => rg.idx)
        = done.map (fun rg => rg.idx)
          ++ (List.range todo.length).map (fun k => some (done.length + k))) ∧
      (∀ rg ∈ out, rg ∈ done ∨
        ((rg.ambient = true → rg.spans ≠ []) ∧
         (∀ ps, rg.parents = some ps → ∀ x ∈ ps, ∃ j, x = NameOrRef.ref j))) ∧
      ((∀ rg ∈ todo, ∀ ps, rg.parents = some ps → ∀ x ∈ ps, ∃ j, x = NameOrRef.ref j) →
        ∀ rg ∈ out, rg ∈ done ∨ (∀ ps, rg.parents = some ps → ps = [])) := by
  intro todo
  induction todo with
  | nil =>
    intro done acc out d h
    simp only [linkRangesGo, Except.ok.injEq, Prod.mk.injEq] at h
    obtain ⟨h1, _⟩ := h
    subst h1
    refine ⟨by simp, fun rg hrg => Or.inl hrg, fun _ rg hrg => Or.inl hrg⟩
  | cons rg rest ih =>
    intro done acc out d h
    unfold linkRangesGo at h
    cases hl : Range.link { tml with ranges := done ++ rg :: rest } rg with
    | error e => rw [hl] at h; simp at h
    | ok p =>
      obtain ⟨rg', ds⟩ := p
      rw [hl] at h
      dsimp only at h
      obtain ⟨hidx, hmem, hempt⟩ := ih (done ++ [{ rg' with idx := some done.length }]) _ out d h
      obtain ⟨hinv1, hinv2, hinv3⟩ := range_link_inv _ rg rg' ds hl
      refine ⟨?_, ?_, ?_⟩
      · rw [hidx]
        have h1 : (done ++ [{ rg' with idx := some done.length }]).map
              (fun r : TML.Range => r.idx)
            = done.map (fun r : TML.Range => r.idx) ++ [some done.length] := by simp
        have h2 : (done ++ [{ rg' with idx := some done.length }]).length
            = done.length + 1 := by simp
        have h3 : (List.range (rg :: rest).length).map (fun k => some (done.length + k))
            = some done.length :: (List.range rest.length).map
                (fun k => some (done.length + 1 + k)) := by
          rw [List.length_cons, List.range_succ_eq_map, List.map_cons, List.map_map,
            Nat.add_zero]
          have htail : (List.range rest.length).map
                ((fun k => some (done.length + k)) ∘ Nat.succ)
              = (List.range rest.length).map (fun k => some (done.length + 1 + k)) := by
            apply List.map_congr_left
            intro k _
            simp only [Function.comp_apply]
            have he : done.length + Nat.succ k = done.length + 1 + k := by omega
            rw [he]
          rw [htail]
        rw [h1, h2, h3, List.append_assoc]
        rfl
      · intro rg2 hrg2
        rcases hmem rg2 hrg2 with hin | hinv
        · rw [List.mem_append] at hin
          rcases hin with hin | hin
          · exact Or.inl hin
          · simp only [List.mem_singleton] at hin
            subst hin
            exact Or.inr ⟨hinv1, hinv2⟩
        · exact Or.inr hinv
      · intro hrefs rg2 hrg2
        have hrest : ∀ r ∈ rest, ∀ ps, r.parents = some ps →
            ∀ x ∈ ps, ∃ j, x = NameOrRef.ref j :=
          fun r hr => hrefs r (List.mem_cons_of_mem _ hr)
        rcases hempt hrest rg2 hrg2 with hin | hemp
        · rw [List.mem_append] at hin
          rcases hin with hin | hin
          · exact Or.inl hin
          · simp only [List.mem_singleton] at hin
            subst hin
            exact Or.inr (hinv3 (hrefs rg (List.mem_cons_self _ _)))
        · exact Or.inr hemp

/-- Helper: the range-linking loop succeeds whenever all event times are
defined and every pending ambient range has a span. -/
theorem linkRangesGo_ok (tml : Timeline)
    (hev : ∀ ev ∈ tml.events, ev.time.isSome = true) :
    ∀ (todo done : List TML.Range) (acc : List Diag),
      (∀ rg ∈ todo, rg.ambient = true → rg.spans ≠ []) →
      ∃ res, linkRangesGo tml done acc todo = .ok res := by
  intro todo
  induction todo with
  | nil => exact fun done acc _ => ⟨(done, acc), rfl⟩
  | cons rg rest ih =>
    intro done acc hsp
    have hok := range_link_ok { tml with ranges := done ++ rg :: rest } rg
      (by exact hev)
      (fun hamb => ⟨hsp rg (List.mem_cons_self _ _) hamb, by
        rw [List.mem_append]
        exact Or.inr (List.mem_cons_self _ _)⟩)
    obtain ⟨⟨rg', ds⟩, h'⟩ := hok
    obtain ⟨res, hres⟩ := ih (done ++ [{ rg' with idx := some done.length }]) (acc ++ ds)
      (fun r hr => hsp r (List.mem_cons_of_mem _ hr))
    refine ⟨res, ?_⟩
    unfold linkRangesGo
    rw [h']
    exact hres

/-- Helper: positionwise agreement under a projection gives equal maps. -/
theorem map_eq_of_ptwise {α β : Type} (f : α → β) (l l' : List α)
    (hpt : ∀ k, (l'.get? k).map f = (l.get? k).map f) :
    l'.map f = l.map f := by
  rw [List.ext_get?_iff]
  intro n
  rw [List.get?_map, List.get?_map]
  exact hpt n

/-- Helper: positionwise agreement under a projection lets membership
transfer along the projection. -/
theorem mem_of_ptwise {α β : Type} (f : α → β) (l l' : List α)
    (hpt : ∀ k, (l'.get? k).map f = (l.get? k).map f) :
    ∀ x ∈ l', ∃ y ∈ l, f x = f y := by
  intro x hx
  obtain ⟨n, hn⟩ := List.mem_iff_get?.mp hx
  have h := hpt n
  rw [hn] at h
  simp only [Option.map_some'] at h
  cases hl : l.get? n with
  | none => rw [hl] at h; simp at h
  | some y =>
    rw [hl] at h
    simp only [Option.map_some'] at h
    exact ⟨y, List.get?_mem hl, Option.some_inj.mp h⟩

/-- Helper: what `Event.link` does: the event keeps its core (and time) and
gets resolved reference sets; the ranges list keeps its length and, at every
position, its link-relevant fields. -/
theorem event_link_spec (ranges : List TML.Range) (i : Nat) (ev : Event) :
    (Event.link ranges i ev).1.core = ev.core ∧
    (Event.link ranges i ev).1.time = ev.time ∧
    (Event.link ranges i ev).1.from_rg = resolveSet ranges ev.from_rg ∧
    (Event.link ranges i ev).1.with_rg = resolveSet ranges ev.with_rg ∧
    (Event.link ranges i ev).2.1.length = ranges.length ∧
    (∀ k, ((Event.link ranges i ev).2.1.get? k).map Range.linkCore
        = (ranges.get? k).map Range.linkCore) := by
  unfold Event.link
  by_cases hemp : (resolveSet ranges ev.with_rg).isEmpty
  · rw [if_pos hemp]
    exact ⟨rfl, rfl, rfl, rfl, rfl, fun k => rfl⟩
  · rw [if_neg hemp]
    cases hlast : ((resolveSet ranges ev.with_rg).insertionSort (wIdxLe ranges)).getLast? with
    | none => exact ⟨rfl, rfl, rfl, rfl, rfl, fun k => rfl⟩
    | some x =>
      cases x with
      | nm s => exact ⟨rfl, rfl, rfl, rfl, rfl, fun k => rfl⟩
      | ref j =>
        dsimp only
        cases hget : ranges.get? j with
        | none => exact ⟨rfl, rfl, rfl, rfl, rfl, fun k => rfl⟩
        | some r =>
          dsimp only
          refine ⟨rfl, rfl, rfl, rfl, by simp, ?_⟩
          intro k
          by_cases hkj : j = k
          · subst hkj
            have hj : j < ranges.length := by
              rw [List.get?_eq_getElem?] at hget
              exact (List.getElem?_eq_some_iff.mp hget).1
            have hget2 : ranges[j]? = some r := by
              rw [← List.get?_eq_getElem?]; exact hget
            rw [List.get?_eq_getElem?, List.get?_eq_getElem?,
              List.getElem?_set_self hj, hget2]
            rfl
          · rw [List.get?_eq_getElem?, List.get?_eq_getElem?, List.getElem?_set_ne hkj,
              ← List.get?_eq_getElem?]

/-- Helper: what the event-linking loop produces: cores in order, resolved
reference sets per event, ranges preserved positionwise up to their
link-relevant fields. -/
theorem linkEventsGo_spec :
    ∀ (todo : List Event) (ranges : List TML.Range) (done : List Event) (acc : List Diag),
      ((linkEventsGo ranges done acc todo).1.map Event.core
        = done.map Event.core ++ todo.map Event.core) ∧
      (∀ ev ∈ (linkEventsGo ranges done acc todo).1, ev ∈ done ∨
        ∃ r src, src ∈ todo ∧ ev.from_rg = resolveSet r src.from_rg ∧
          ev.with_rg = resolveSet r src.with_rg ∧ ev.time = src.time) ∧
      ((linkEventsGo ranges done acc todo).2.1.length = ranges.length) ∧
      (∀ k, ((linkEventsGo ranges done acc todo).2.1.get? k).map Range.linkCore
          = (ranges.get? k).map Range.linkCore) := by
  intro todo
  induction todo with
  | nil =>
    intro ranges done acc
    refine ⟨by simp [linkEventsGo], ?_, rfl, fun k => rfl⟩
    intro ev hev
    exact Or.inl hev
  | cons ev rest ih =>
    intro ranges done acc
    obtain ⟨⟨ev', ranges', ds⟩, hEL⟩ : ∃ t, Event.link ranges done.length ev = t := ⟨_, rfl⟩
    obtain ⟨hcore, htime, hfrom, hwith, hlen, hpt⟩ := event_link_spec ranges done.length ev
    rw [hEL] at hcore htime hfrom hwith hlen hpt
    dsimp only at hcore htime hfrom hwith hlen hpt
    have hunf : linkEventsGo ranges done acc (ev :: rest)
        = linkEventsGo ranges' (done ++ [ev']) (acc ++ ds) rest := by
      simp only [linkEventsGo, hEL]
    rw [hunf]
    obtain ⟨ih1, ih2, ih3, ih4⟩ := ih ranges' (done ++ [ev']) (acc ++ ds)
    refine ⟨?_, ?_, ?_, ?_⟩
    · rw [ih1]
      simp only [List.map_append, List.map_cons, List.map_nil, List.append_assoc,
        List.cons_append, List.nil_append, hcore]
    · intro e he
      rcases ih2 e he with hin | ⟨r, src, hsrc, h1, h2, h3⟩
      · rw [List.mem_append] at hin
        rcases hin with hin | hin
        · exact Or.inl hin
        · simp only [List.mem_singleton] at hin
          subst hin
          exact Or.inr ⟨ranges, ev, List.mem_cons_self _ _, hfrom, hwith, htime⟩
      · exact Or.inr ⟨r, src, List.mem_cons_of_mem _ hsrc, h1, h2, h3⟩
    · rw [ih3, hlen]
    · intro k
      rw [ih4 k, hpt k]

/-- Helper: assigning universal-event indices on the reversed list keeps the
event cores and, per element, the reference sets and time. -/
theorem assignUIGo_spec :
    ∀ (evs : List Event) (i : Nat),
      ((assignUIGo i evs).1.map Event.core = evs.map Event.core) ∧
      (∀ ev' ∈ (assignUIGo i evs).1, ∃ ev ∈ evs, ev'.from_rg = ev.from_rg ∧
        ev'.with_rg = ev.with_rg ∧ ev'.time = ev.time) := by
  intro evs
  induction evs with
  | nil => exact fun i => ⟨rfl, fun ev' h => absurd h (List.not_mem_nil _)⟩
  | cons e es ih =>
    intro i
    by_cases hu : e.is_universal
    · obtain ⟨⟨r, n⟩, hr⟩ : ∃ t, assignUIGo (i + 1) es = t := ⟨_, rfl⟩
      obtain ⟨ih1, ih2⟩ := ih (i + 1)
      rw [hr] at ih1 ih2
      dsimp only at ih1 ih2
      have hunf : assignUIGo i (e :: es) = ({ e with idx := some i } :: r, n) := by
        unfold assignUIGo
        rw [if_pos hu, hr]
      rw [hunf]
      refine ⟨?_, ?_⟩
      · dsimp only [List.map_cons]
        rw [ih1]
        rfl
      · intro ev' hev
        rcases List.mem_cons.mp hev with hin | hin
        · subst hin
          exact ⟨e, List.mem_cons_self _ _, rfl, rfl, rfl⟩
        · obtain ⟨ev, hmem, h⟩ := ih2 ev' hin
          exact ⟨ev, List.mem_cons_of_mem _ hmem, h⟩
    · obtain ⟨⟨r, n⟩, hr⟩ : ∃ t, assignUIGo i es = t := ⟨_, rfl⟩
      obtain ⟨ih1, ih2⟩ := ih i
      rw [hr] at ih1 ih2
      dsimp only at ih1 ih2
      have hunf : assignUIGo i (e :: es) = (e :: r, n) := by
        unfold assignUIGo
        rw [if_neg hu, hr]
      rw [hunf]
      refine ⟨?_, ?_⟩
      · dsimp only [List.map_cons]
        rw [ih1]
      · intro ev' hev
        rcases List.mem_cons.mp hev with hin | hin
        · subst hin
          exact ⟨ev', List.mem_cons_self _ _, rfl, rfl, rfl⟩
        · obtain ⟨ev, hmem, h⟩ := ih2 ev' hin
          exact ⟨ev, List.mem_cons_of_mem _ hmem, h⟩

/-- Helper: the same, through the reversals of `assignUniversalIdx`. -/
theorem assignUniversalIdx_spec (evs : List Event) :
    ((assignUniversalIdx evs).1.map Event.core = evs.map Event.core) ∧
    (∀ ev' ∈ (assignUniversalIdx evs).1, ∃ ev ∈ evs, ev'.from_rg = ev.from_rg ∧
      ev'.with_rg = ev.with_rg ∧ ev'.time = ev.time) := by
  obtain ⟨⟨r, n⟩, hr⟩ : ∃ t, assignUIGo 0 evs.reverse = t := ⟨_, rfl⟩
  obtain ⟨h1, h2⟩ := assignUIGo_spec evs.reverse 0
  rw [hr] at h1 h2
  dsimp only at h1 h2
  have hunf : assignUniversalIdx evs = (r.reverse, n) := by
    unfold assignUniversalIdx
    rw [hr]
  rw [hunf]
  constructor
  · dsimp only
    rw [List.map_reverse, h1, List.map_reverse, List.reverse_reverse]
  · intro ev' hev
    dsimp only at hev
    rw [List.mem_reverse] at hev
    obtain ⟨ev, hmem, h⟩ := h2 ev' hev
    rw [List.mem_reverse] at hmem
    exact ⟨ev, hmem, h⟩

/-- Helper: sortedness by time transfers along equal core lists (the sort
key is part of the core). -/
theorem sorted_transfer (l l' : List Event)
    (hmap : l'.map Event.core = l.map Event.core) (hs : List.Sorted evTimeLe l) :
    List.Sorted evTimeLe l' := by
  have hproj : ∀ m : List Event, m.map evKeyQ
      = (m.map Event.core).map (fun c => c.2.1.getD 0) := by
    intro m
    rw [List.map_map]
    apply List.map_congr_left
    intro ev _
    rfl
  have hkey : l'.map evKeyQ = l.map evKeyQ := by
    rw [hproj, hproj, hmap]
  have h1 : (l.map evKeyQ).Pairwise (fun a b => a ≤ b) := by
    rw [List.pairwise_map]
    exact hs
  rw [← hkey] at h1
  rw [List.pairwise_map] at h1
  exact h1

/-- Helper: when every range has trivial parents, synthesis yields no
constraints (and no error). -/
theorem synthConsGo_trivial (all : List TML.Range) :
    ∀ l : List TML.Range,
      (∀ rg ∈ l, ∀ ps, rg.parents = some ps → ps = []) →
      synthConsGo all l = .ok [] := by
  intro l
  induction l with
  | nil => intro _; rfl
  | cons rg rest ih =>
    intro h
    unfold synthConsGo
    cases hp : rg.parents with
    | none =>
      dsimp only
      exact ih (fun r hr => h r (List.mem_cons_of_mem _ hr))
    | some ps =>
      have hps : ps = [] := h rg (List.mem_cons_self _ _) ps hp
      subst hps
      dsimp only
      rw [ih (fun r hr => h r (List.mem_cons_of_mem _ hr))]
      rfl

/-- Helper: the exact shape of a successful `Timeline.link` run in terms of
its five steps. -/
theorem link_destruct (tml tml1 : Timeline) (d1 : List Diag)
    (h : tml.link = .ok (tml1, d1)) :
    ∃ ranges1 dr evs2 ranges2 d3 s,
      linkRangesGo tml [] [] tml.ranges = .ok (ranges1, dr) ∧
      linkEventsGo ranges1 [] []
        ((tml.events.filter (fun ev => ev.time.isSome)).insertionSort evTimeLe)
        = (evs2, ranges2, d3) ∧
      synthCons ranges2 = .ok s ∧
      tml1.ranges = ranges2 ∧
      tml1.events = (assignUniversalIdx evs2).1 ∧
      tml1.constraints = tml.constraints ++ s := by
  unfold Timeline.link at h
  cases hr : linkRangesGo tml [] [] tml.ranges with
  | error e => rw [hr] at h; simp at h
  | ok p =>
    obtain ⟨ranges1, dr⟩ := p
    rw [hr] at h
    dsimp only at h
    obtain ⟨⟨evs2, ranges2, d3⟩, hE⟩ : ∃ t, linkEventsGo ranges1 [] []
        ((tml.events.filter (fun ev => ev.time.isSome)).insertionSort evTimeLe) = t :=
      ⟨_, rfl⟩
    rw [hE] at h
    dsimp only at h
    obtain ⟨⟨evs3, uc⟩, hU⟩ : ∃ t, assignUniversalIdx evs2 = t := ⟨_, rfl⟩
    rw [hU] at h
    dsimp only at h
    cases hs : synthCons ranges2 with
    | error e => rw [hs] at h; simp at h
    | ok s =>
      rw [hs] at h
      simp only [Except.ok.injEq, Prod.mk.injEq] at h
      obtain ⟨h1, _⟩ := h
      subst h1
      exact ⟨ranges1, dr, evs2, ranges2, d3, s, rfl, hE, hs, rfl, by rw [hU], rfl⟩

/-- Helper: the state of a document after one successful link: every event
has a defined time and object-reference sets; events are sorted by time;
every range satisfies the link invariants; range idx fields enumerate the
insertion positions. -/
theorem link_post (tml tml1 : Timeline) (d1 : List Diag) (h : tml.link = .ok (tml1, d1)) :
    (∀ ev ∈ tml1.events, ev.time.isSome = true ∧
      (∀ x ∈ ev.from_rg, ∃ j, x = NameOrRef.ref j) ∧
      (∀ x ∈ ev.with_rg, ∃ j, x = NameOrRef.ref j)) ∧
    List.Sorted evTimeLe tml1.events ∧
    (∀ rg ∈ tml1.ranges, (rg.ambient = true → rg.spans ≠ []) ∧
      (∀ ps, rg.parents = some ps → ∀ x ∈ ps, ∃ j, x = NameOrRef.ref j)) ∧
    tml1.ranges.map (fun rg => rg.idx)
      = (List.range tml.ranges.length).map (fun k => some k) ∧
    tml1.ranges.length = tml.ranges.length := by
  obtain ⟨ranges1, dr, evs2, ranges2, d3, s, hr, hE, hs, hR, hEv, hC⟩ :=
    link_destruct tml tml1 d1 h
  obtain ⟨hidx1, hmem1, _⟩ := linkRangesGo_out tml tml.ranges [] [] ranges1 dr hr
  obtain ⟨hE1, hE2, hE3, hE4⟩ := linkEventsGo_spec
    ((tml.events.filter (fun ev => ev.time.isSome)).insertionSort evTimeLe) ranges1 [] []
  rw [hE] at hE1 hE2 hE3 hE4
  dsimp only at hE1 hE2 hE3 hE4
  obtain ⟨hA1, hA2⟩ := assignUniversalIdx_spec evs2
  refine ⟨?_, ?_, ?_, ?_, ?_⟩
  · intro ev hev
    rw [hEv] at hev
    obtain ⟨ev2, hev2, hfrom, hwith, htime⟩ := hA2 ev hev
    rcases hE2 ev2 hev2 with hin | ⟨r, src, hsrc, h1, h2, h3⟩
    · exact absurd hin (List.not_mem_nil _)
    · have hsrcf : src ∈ tml.events.filter (fun ev => ev.time.isSome) := by
        have := List.perm_insertionSort evTimeLe
          (tml.events.filter (fun ev => ev.time.isSome))
        exact this.mem_iff.mp hsrc
      have hts : src.time.isSome = true := by
        have := List.mem_filter.mp hsrcf
        exact this.2
      refine ⟨by rw [htime, h3]; exact hts, ?_, ?_⟩
      · rw [hfrom, h1]
        exact resolveSet_refs r src.from_rg
      · rw [hwith, h2]
        exact resolveSet_refs r src.with_rg
  · rw [hEv]
    apply sorted_transfer _ _ hA1
    have hEcore : evs2.map Event.core
        = ((tml.events.filter (fun ev => ev.time.isSome)).insertionSort evTimeLe).map
            Event.core := by
      rw [hE1]
      simp
    apply sorted_transfer _ _ hEcore
    exact List.sorted_insertionSort evTimeLe _
  · intro rg hrg
    rw [hR] at hrg
    obtain ⟨rg1, hrg1, hcore⟩ := mem_of_ptwise Range.linkCore ranges1 ranges2 hE4 rg hrg
    rcases hmem1 rg1 hrg1 with hin | ⟨hi1, hi2⟩
    · exact absurd hin (List.not_mem_nil _)
    · have hamb : rg.ambient = rg1.ambient := congrArg (fun c => c.2.2.1) hcore
      have hspans : rg.spans = rg1.spans := congrArg (fun c => c.2.2.2.1) hcore
      have hpar : rg.parents = rg1.parents := congrArg (fun c => c.2.2.2.2) hcore
      refine ⟨?_, ?_⟩
      · intro ha
        rw [hspans]
        exact hi1 (by rw [← hamb]; exact ha)
      · intro ps hps
        exact hi2 ps (by rw [← hpar]; exact hps)
  · rw [hR]
    have hmap : ranges2.map (fun rg => rg.idx) = ranges1.map (fun rg => rg.idx) := by
      have h0 := map_eq_of_ptwise Range.linkCore ranges1 ranges2 hE4
      have h1 : ∀ m : List TML.Range, m.map (fun rg => rg.idx)
          = (m.map Range.linkCore).map (fun c => c.2.1) := by
        intro m
        rw [List.map_map]
        apply List.map_congr_left
        intro rg _
        rfl
      rw [h1, h1, h0]
    rw [hmap, hidx1]
    simp
  · rw [hR]
    have := congrArg List.length (map_eq_of_ptwise Range.linkCore ranges1 ranges2 hE4)
    simp only [List.length_map] at this
    rw [this]
    have := congrArg List.length hidx1
    simp only [List.length_map, List.length_append, List.length_nil, List.length_range]
      at this
    simpa using this

/-- Helper: positionwise link-core agreement gives equal idx maps. -/
theorem map_idx_of_ptwise (l l' : List TML.Range)
    (hpt : ∀ k, (l'.get? k).map Range.linkCore = (l.get? k).map Range.linkCore) :
    l'.map (fun rg => rg.idx) = l.map (fun rg => rg.idx) := by
  have h0 := map_eq_of_ptwise Range.linkCore l l' hpt
  have h1 : ∀ m : List TML.Range, m.map (fun rg => rg.idx)
      = (m.map Range.linkCore).map (fun c => c.2.1) := by
    intro m
    rw [List.map_map]
    apply List.map_congr_left
    intro rg _
    rfl
  rw [h1, h1, h0]

/-- C3 (amended): after one successful link, a second link run succeeds and
preserves every range idx and the order and membership (cores) of the event
sequence, but it does not preserve the resolved reference sets: resolution
treats the object references installed by the first run as unknown
dictionary keys and drops them all, so every parent/from/with set comes out
empty. -/
theorem link_second_run (tml tml1 : Timeline) (d1 : List Diag)
    (h : tml.link = .ok (tml1, d1)) :
    ∃ tml2 d2, tml1.link = .ok (tml2, d2) ∧
      tml2.ranges.map (fun rg => rg.idx) = tml1.ranges.map (fun rg => rg.idx) ∧
      tml2.events.map Event.core = tml1.events.map Event.core ∧
      (∀ ev ∈ tml2.events, ev.from_rg = [] ∧ ev.with_rg = []) ∧
      (∀ rg ∈ tml2.ranges, ∀ ps, rg.parents = some ps → ps = []) := by
  obtain ⟨hev, hsorted, hrinv, hidx, hlen⟩ := link_post tml tml1 d1 h
  have hevs : ∀ ev ∈ tml1.events, ev.time.isSome = true := fun ev hv => (hev ev hv).1
  obtain ⟨⟨out2, dr2⟩, hr2⟩ := linkRangesGo_ok tml1 hevs tml1.ranges [] []
    (fun rg hrg => (hrinv rg hrg).1)
  obtain ⟨hidx2, hmem2, hempt2⟩ := linkRangesGo_out tml1 tml1.ranges [] [] out2 dr2 hr2
  have hfil : tml1.events.filter (fun ev => ev.time.isSome) = tml1.events :=
    List.filter_eq_self.mpr (fun ev hv => hevs ev hv)
  have hsort : (tml1.events.filter (fun ev => ev.time.isSome)).insertionSort evTimeLe
      = tml1.events := by
    rw [hfil]
    exact hsorted.insertionSort_eq
  obtain ⟨⟨evs2, ranges2, d3⟩, hE⟩ :
      ∃ t, linkEventsGo out2 [] [] tml1.events = t := ⟨_, rfl⟩
  obtain ⟨hE1, hE2, hE3, hE4⟩ := linkEventsGo_spec tml1.events out2 [] []
  rw [hE] at hE1 hE2 hE3 hE4
  dsimp only at hE1 hE2 hE3 hE4
  obtain ⟨⟨evs3, uc⟩, hU⟩ : ∃ t, assignUniversalIdx evs2 = t := ⟨_, rfl⟩
  obtain ⟨hA1, hA2⟩ := assignUniversalIdx_spec evs2
  rw [hU] at hA1 hA2
  dsimp only at hA1 hA2
  have hRef : ∀ rg ∈ tml1.ranges, ∀ ps, rg.parents = some ps →
      ∀ x ∈ ps, ∃ j, x = NameOrRef.ref j := fun rg hrg => (hrinv rg hrg).2
  have hD : ∀ rg ∈ ranges2, ∀ ps, rg.parents = some ps → ps = [] := by
    intro rg hrg ps hps
    obtain ⟨y, hy, hcore⟩ := mem_of_ptwise Range.linkCore out2 ranges2 hE4 rg hrg
    have hpar : rg.parents = y.parents := congrArg (fun c => c.2.2.2.2) hcore
    rcases hempt2 hRef y hy with hin | hy2
    · exact absurd hin (List.not_mem_nil _)
    · exact hy2 ps (by rw [← hpar]; exact hps)
  have hsynth2 : synthCons ranges2 = .ok [] := synthConsGo_trivial ranges2 ranges2 hD
  have hlink2 : tml1.link = .ok
      (Timeline.mk ranges2 evs3 (tml1.constraints ++ []) tml1.groups (some uc),
        dr2 ++ [] ++ d3) := by
    unfold Timeline.link
    rw [hr2]
    dsimp only
    rw [hsort, hE]
    dsimp only
    rw [hU]
    dsimp only
    rw [hsynth2]
    dsimp only
    rw [if_pos rfl]
  refine ⟨_, _, hlink2, ?_, ?_, ?_, ?_⟩
  · dsimp only
    rw [map_idx_of_ptwise out2 ranges2 hE4, hidx2, hidx, hlen]
    simp
  · dsimp only
    rw [hA1, hE1]
    simp
  · intro ev hev3
    dsimp only at hev3
    obtain ⟨ev2, hev2, hfrom, hwith, _⟩ := hA2 ev hev3
    rcases hE2 ev2 hev2 with hin | ⟨r, src, hsrc, h1, h2, _⟩
    · exact absurd hin (List.not_mem_nil _)
    · obtain ⟨_, hsf, hsw⟩ := hev src hsrc
      constructor
      · rw [hfrom, h1]
        exact resolveSet_of_refs r src.from_rg hsf
      · rw [hwith, h2]
        exact resolveSet_of_refs r src.with_rg hsw
  · intro rg hrg
    dsimp only at hrg
    exact hD rg hrg

/-- Witness for C3 (amended) on the concrete document `tmlC`, whose first
link resolves the parent set of `Kid` and the from set of its event: the
second run succeeds, keeps the idx map and event cores, and empties every
reference set. -/
theorem link_second_run_witness :
    ∃ tml2 d2, Examples.tmlCRes.1.link = .ok (tml2, d2) ∧
      tml2.ranges.map (fun rg => rg.idx)
        = Examples.tmlCRes.1.ranges.map (fun rg => rg.idx) ∧
      tml2.events.map Event.core = Examples.tmlCRes.1.events.map Event.core ∧
      (∀ ev ∈ tml2.events, ev.from_rg = [] ∧ ev.with_rg = []) ∧
      (∀ rg ∈ tml2.ranges, ∀ ps, rg.parents = some ps → ps = []) :=
  link_second_run Examples.tmlC Examples.tmlCRes.1 Examples.tmlCRes.2 rfl
